import Mathlib

/-!
Verification of the bro-file-manager server core against its specification.

The definitions below are a shallow embedding of the TypeScript server
(`server.ts`, quoted in `docs/plan/2025-01-24-s3-integration.md`) and of the
storage adapters / settings store (`src/constants.ts`).  String manipulation
is modelled over `List Char` (`String.data`) so that every definition is
executable by the kernel; machine `number`s become `Nat` (all quantities
involved are non-negative integers well below 2^53, where JS arithmetic is
exact).  Library primitives that are not part of the repository (HMAC,
base64url, JSON, the S3 service, the filesystem) are either modelled
explicitly or taken as parameters whose documented contracts appear as
hypotheses.
-/

namespace BroFM

/-- Split a character list at every occurrence of the separator `c`,
modelling JavaScript `String.prototype.split` with a single-character
separator (`"a.b.c".split "." = ["a","b","c"]`, `"".split "." = [""]`). -/
def splitCh (c : Char) : List Char → List (List Char)
  | [] => [[]]
  | a :: as =>
    if a = c then [] :: splitCh c as
    else
      match splitCh c as with
      | [] => [[a]]
      | h :: t => (a :: h) :: t

theorem splitCh_ne_nil (c : Char) (xs : List Char) : splitCh c xs ≠ [] := by
  induction xs with
  | nil => simp [splitCh]
  | cons a as ih =>
    simp only [splitCh]
    split
    · simp
    · cases h : splitCh c as with
      | nil => simp
      | cons h t => simp

theorem splitCh_of_not_mem {c : Char} {xs : List Char} (h : c ∉ xs) :
    splitCh c xs = [xs] := by
  induction xs with
  | nil => rfl
  | cons a as ih =>
    simp only [List.mem_cons, not_or] at h
    have hac : ¬a = c := fun h' => h.1 h'.symm
    simp [splitCh, if_neg hac, ih h.2]

theorem splitCh_append {c : Char} {xs : List Char} (ys : List Char)
    (h : c ∉ xs) : splitCh c (xs ++ c :: ys) = xs :: splitCh c ys := by
  induction xs with
  | nil => simp [splitCh]
  | cons a as ih =>
    simp only [List.mem_cons, not_or] at h
    have hac : ¬a = c := fun h' => h.1 h'.symm
    simp [splitCh, if_neg hac, ih h.2]

/-- JavaScript truthiness of a string: `""` and `undefined` are falsy. -/
def strFalsy : Option String → Bool
  | none => true
  | some s => s = ""

/-- Host path separator (`path.sep` on the POSIX host). -/
def sep : String := "/"

/-- Whether a string ends with the path separator, modelling
`rootReal.endsWith(path.sep)`. -/
def endsWithSep (r : String) : Bool := r.data.getLast? = some '/'

/-- Embedding of `isWithinRoot` from `server.ts`: the candidate is the root
itself, or an extension of the root across a path-separator boundary
(`candidate.startsWith(rootWithSep)`). -/
def isWithinRoot (candidate rootReal : String) : Bool :=
  if candidate = rootReal then true
  else
    let rootWithSep := if endsWithSep rootReal then rootReal else rootReal ++ sep
    rootWithSep.data.isPrefixOf candidate.data

/-- The root with a trailing separator appended when absent, as computed
inside `isWithinRoot`. -/
def withSep (rootReal : String) : String :=
  if endsWithSep rootReal then rootReal else rootReal ++ sep

/-- One pass of `path.posix.normalize` segment processing: drop empty and
`"."` segments, let `".."` pop the accumulated stack (a `".."` at the root is
discarded, as for absolute POSIX paths). -/
def normSegs : List (List Char) → List (List Char) → List (List Char)
  | acc, [] => acc.reverse
  | acc, s :: rest =>
    if s = [] ∨ s = ['.'] then normSegs acc rest
    else if s = ['.', '.'] then
      match acc with
      | [] => normSegs [] rest
      | _ :: t => normSegs t rest
    else normSegs (s :: acc) rest

/-- Embedding of `path.posix.normalize` for absolute inputs: collapse
duplicate separators and `.`/`..` segments, preserving one trailing separator
when the input had one and the result is not the root. -/
def posixNormalize (raw : String) : String :=
  let segs := normSegs [] (splitCh '/' raw.data)
  let body := List.intercalate ['/'] segs
  if body = [] then "/"
  else if raw.data.getLast? = some '/' then String.mk ('/' :: body ++ ['/'])
  else String.mk ('/' :: body)

/-- Embedding of `normalizeRequestPath` from `server.ts`: default missing or
empty input to `"/"`, rewrite backslashes to slashes, force a leading slash,
then POSIX-normalize. -/
def normalizeRequestPath (input : Option String) : String :=
  let raw0 := match input with
    | none => "/"
    | some s => if s = "" then "/" else s
  let raw1 := String.mk (raw0.data.map (fun c => if c = '\\' then '/' else c))
  let raw2 := if raw1.data.head? = some '/' then raw1 else "/" ++ raw1
  let normalized := posixNormalize raw2
  if normalized.data.head? = some '/' then normalized else "/"

/-- Embedding of `path.resolve(rootReal, "." + normalized)` for the inputs
produced by `normalizeRequestPath`: `normalized` is absolute and free of
`..` segments, and `rootReal` is an absolute host path without a trailing
separator, so resolution is concatenation (a trailing separator on the
virtual path is dropped, as `path.resolve` does). -/
def joinRoot (rootReal normalized : String) : String :=
  let trimmed :=
    if normalized ≠ "/" ∧ normalized.data.getLast? = some '/' then
      String.mk normalized.data.dropLast
    else normalized
  if trimmed = "/" then rootReal else rootReal ++ trimmed

/-- Embedding of `resolveSafePath` from `server.ts`.  `realpath` is the host
`fs.realpath` oracle: `none` models an ENOENT/failure (the function then
throws, modelled as `none`); otherwise it returns the symlink-resolved host
path.  On success the pair `(normalized, fullPath)` is returned. -/
def resolveSafePath (realpath : String → Option String)
    (requestPath : Option String) (rootReal : String) :
    Option (String × String) :=
  let normalized := normalizeRequestPath requestPath
  if normalized = "/.trash" ∨ ("/.trash/").data.isPrefixOf normalized.data then
    none
  else
    let joined := joinRoot rootReal normalized
    match realpath joined with
    | none => none
    | some real =>
      if isWithinRoot real rootReal then some (normalized, real) else none

theorem isWithinRoot_eq_true {candidate rootReal : String}
    (h : isWithinRoot candidate rootReal = true) :
    candidate = rootReal ∨ (withSep rootReal).data.isPrefixOf candidate.data = true := by
  by_cases hc : candidate = rootReal
  · exact Or.inl hc
  · right
    simpa [isWithinRoot, withSep, if_neg hc] using h

/-- C1: whenever `resolveSafePath` succeeds, the returned host path is the
user's `rootReal` itself or extends it across a separator boundary (the
separator is appended to `rootReal` when not already present), so a root of
`/data/foo` never admits `/data/foobar`. -/
theorem resolveSafePath_within_root :
    (∀ (realpath : String → Option String) (p : Option String)
        (rootReal normalized fullPath : String),
      resolveSafePath realpath p rootReal = some (normalized, fullPath) →
      fullPath = rootReal ∨ (withSep rootReal).data.isPrefixOf fullPath.data = true)
    ∧ isWithinRoot "/data/foobar" "/data/foo" = false := by
  constructor
  · intro realpath p rootReal normalized fullPath h
    simp only [resolveSafePath] at h
    split at h
    · exact absurd h (by simp)
    · cases hr : realpath (joinRoot rootReal (normalizeRequestPath p)) with
      | none => rw [hr] at h; exact absurd h (by simp)
      | some real =>
        rw [hr] at h
        simp only [] at h
        by_cases hw : isWithinRoot real rootReal = true
        · rw [if_pos hw] at h
          have : real = fullPath := by
            have := congrArg (fun o => Option.map Prod.snd o) h
            simpa using this
          subst this
          exact isWithinRoot_eq_true hw
        · rw [if_neg hw] at h
          exact absurd h (by simp)
  · decide

/-- Witness for C1 at a concrete input: a symlink-free oracle, request path
`/a` and root `/data/foo` resolve to `/data/foo/a`, which is separator-nested
inside the root. -/
theorem resolveSafePath_within_root_witness :
    ("/data/foo/a" : String) = "/data/foo" ∨
      (withSep "/data/foo").data.isPrefixOf ("/data/foo/a" : String).data = true :=
  resolveSafePath_within_root.1 (fun s => some s) (some "/a") "/data/foo" "/a"
    "/data/foo/a" (by decide)

/-! ## SessionAuthority (`createSession` / `verifySession` in `server.ts`)

The HMAC (`sign`), base64url codec (`base64UrlEncode`/`base64UrlDecode`) and
JSON codec (`JSON.stringify`/`JSON.parse` plus the field type checks) are
runtime-library primitives, so they enter the embedding as parameters
`mac`, `enc`/`dec` and `ser`/`par`; their documented contracts (decoding
inverts encoding, the canonical encodings contain no `.`) are hypotheses of
the theorems.  `safeEqual` (length check plus `timingSafeEqual`) decides
string equality, and is embedded as equality. -/

structure SessionPayload where
  exp : Nat
  nonce : String
  user : String
deriving DecidableEq, Repr

/-- Session lifetime `SESSION_TTL_MS = 1000 * 60 * 60 * 8` (8 hours). -/
def SESSION_TTL_MS : Nat := 1000 * 60 * 60 * 8

/-- Embedding of `createSession`: build `{exp: now + TTL, nonce, user}`,
serialize, base64url-encode, sign, and join with `"."`. -/
def createSession (mac : String → String → String) (enc : String → String)
    (ser : SessionPayload → String) (secret : String) (t0 : Nat)
    (nonce user : String) : String :=
  let payload : SessionPayload := ⟨t0 + SESSION_TTL_MS, nonce, user⟩
  let encoded := enc (ser payload)
  let signature := mac secret encoded
  encoded ++ "." ++ signature

/-- Embedding of `verifySession`: split the token on `"."` (JavaScript
`split` yields every component; the destructuring keeps the first two),
reject falsy components, compare the recomputed signature, decode, parse,
and reject an expired payload (`exp <= Date.now()`). -/
def verifySession (mac : String → String → String)
    (dec : String → Option String) (par : String → Option SessionPayload)
    (secret : String) (now : Nat) (token : Option String) :
    Option SessionPayload :=
  match token with
  | none => none
  | some t =>
    if t = "" then none
    else
      let parts := (splitCh '.' t.data).map String.mk
      let payload := parts.getD 0 ""
      let signature := parts.getD 1 ""
      if payload = "" ∨ signature = "" then none
      else if mac secret payload ≠ signature then none
      else
        match dec payload with
        | none => none
        | some decoded =>
          match par decoded with
          | none => none
          | some data => if data.exp ≤ now then none else some data

theorem data_append_dot (a b : String) :
    (a ++ "." ++ b).data = a.data ++ '.' :: b.data := by
  simp [String.data_append]

theorem string_mk_ne_empty {l : List Char} (h : l ≠ []) : String.mk l ≠ "" := by
  intro hcon
  exact h (by simpa using congrArg String.data hcon)

theorem string_data_ne_nil {s : String} (h : s ≠ "") : s.data ≠ [] := by
  intro hcon
  apply h
  have : String.mk s.data = String.mk [] := by rw [hcon]
  simpa using this

/-- Evaluation of `verifySession` on a token whose split is known. -/
theorem verifySession_eval (mac : String → String → String)
    (dec : String → Option String) (par : String → Option SessionPayload)
    (secret : String) (now : Nat) (t : String) (pd sd : List Char)
    (more : List (List Char)) (h : splitCh '.' t.data = pd :: sd :: more) :
    verifySession mac dec par secret now (some t) =
      (if String.mk pd = "" ∨ String.mk sd = "" then none
       else if mac secret (String.mk pd) ≠ String.mk sd then none
       else
         match dec (String.mk pd) with
         | none => none
         | some decoded =>
           match par decoded with
           | none => none
           | some data => if data.exp ≤ now then none else some data) := by
  have ht : t ≠ "" := by
    intro hcon
    subst hcon
    simp [splitCh] at h
  simp only [verifySession, if_neg ht, h, List.map_cons, List.getD]
  simp

theorem mk_data (s : String) : String.mk s.data = s := rfl

theorem splitCh_createSession {mac : String → String → String}
    {enc : String → String} {ser : SessionPayload → String} {secret : String}
    {t0 : Nat} {nonce user : String}
    (HdotE : '.' ∉ (enc (ser ⟨t0 + SESSION_TTL_MS, nonce, user⟩)).data)
    (HdotS : '.' ∉ (mac secret (enc (ser ⟨t0 + SESSION_TTL_MS, nonce, user⟩))).data) :
    splitCh '.' (createSession mac enc ser secret t0 nonce user).data =
      [(enc (ser ⟨t0 + SESSION_TTL_MS, nonce, user⟩)).data,
       (mac secret (enc (ser ⟨t0 + SESSION_TTL_MS, nonce, user⟩))).data] := by
  simp only [createSession]
  rw [data_append_dot, splitCh_append _ HdotE, splitCh_of_not_mem HdotS]

/-- C2 (amended): characterization of token verification.  For the token
`tok` produced by `createSession` at `t0`: presented unchanged under the
original secret it verifies to the original payload exactly when
`now < t0 + SESSION_TTL_MS`; under a different secret it is rejected
whenever the MAC does not collide; replacing the payload or signature
component is rejected whenever the MAC does not match; a token without a
`.` separator, or a missing token, is rejected.  However the alteration
check is component-wise only: extra `"."`-separated components appended
after the signature are ignored, so such an altered token verifies exactly
like the original. -/
theorem session_token_characterization
    (mac : String → String → String) (enc : String → String)
    (dec : String → Option String) (ser : SessionPayload → String)
    (par : String → Option SessionPayload)
    (secret : String) (t0 now : Nat) (nonce user : String)
    (Hpar : par (ser ⟨t0 + SESSION_TTL_MS, nonce, user⟩) =
      some ⟨t0 + SESSION_TTL_MS, nonce, user⟩)
    (Hdec : dec (enc (ser ⟨t0 + SESSION_TTL_MS, nonce, user⟩)) =
      some (ser ⟨t0 + SESSION_TTL_MS, nonce, user⟩))
    (HdotE : '.' ∉ (enc (ser ⟨t0 + SESSION_TTL_MS, nonce, user⟩)).data)
    (HdotS : '.' ∉ (mac secret (enc (ser ⟨t0 + SESSION_TTL_MS, nonce, user⟩))).data)
    (HneE : enc (ser ⟨t0 + SESSION_TTL_MS, nonce, user⟩) ≠ "")
    (HneS : mac secret (enc (ser ⟨t0 + SESSION_TTL_MS, nonce, user⟩)) ≠ "") :
    (now < t0 + SESSION_TTL_MS →
      verifySession mac dec par secret now
          (some (createSession mac enc ser secret t0 nonce user)) =
        some ⟨t0 + SESSION_TTL_MS, nonce, user⟩)
    ∧ (t0 + SESSION_TTL_MS ≤ now →
      verifySession mac dec par secret now
          (some (createSession mac enc ser secret t0 nonce user)) = none)
    ∧ (∀ junk : String,
      verifySession mac dec par secret now
          (some (createSession mac enc ser secret t0 nonce user ++ "." ++ junk)) =
        verifySession mac dec par secret now
          (some (createSession mac enc ser secret t0 nonce user)))
    ∧ (∀ secret' : String,
      mac secret' (enc (ser ⟨t0 + SESSION_TTL_MS, nonce, user⟩)) ≠
          mac secret (enc (ser ⟨t0 + SESSION_TTL_MS, nonce, user⟩)) →
      verifySession mac dec par secret' now
          (some (createSession mac enc ser secret t0 nonce user)) = none)
    ∧ (∀ P S : String, '.' ∉ P.data → '.' ∉ S.data → mac secret P ≠ S →
      verifySession mac dec par secret now (some (P ++ "." ++ S)) = none)
    ∧ (∀ t : String, '.' ∉ t.data →
      verifySession mac dec par secret now (some t) = none)
    ∧ verifySession mac dec par secret now none = none := by
  set pl : SessionPayload := ⟨t0 + SESSION_TTL_MS, nonce, user⟩ with hpl
  set E := enc (ser pl) with hE
  set S := mac secret E with hS
  have hsplit := @splitCh_createSession mac enc ser secret t0 nonce user
    HdotE HdotS
  have hbase : ∀ secret'' : String,
      verifySession mac dec par secret'' now
          (some (createSession mac enc ser secret t0 nonce user)) =
        (if E = "" ∨ S = "" then none
         else if mac secret'' E ≠ S then none
         else
           match dec E with
           | none => none
           | some decoded =>
             match par decoded with
             | none => none
             | some data => if data.exp ≤ now then none else some data) := by
    intro secret''
    rw [verifySession_eval mac dec par secret'' now _ E.data S.data [] hsplit]
  have h1 : ¬ (E = "" ∨ S = "") := by simp [HneE, HneS]
  have h2 : ¬ (mac secret E ≠ S) := by simp [hS]
  refine ⟨?_, ?_, ?_, ?_, ?_, ?_, rfl⟩
  · intro hlt
    rw [hbase secret, if_neg h1, if_neg h2, Hdec]
    simp only []
    rw [Hpar]
    simp only []
    have hexp : ¬ pl.exp ≤ now := by
      simp only [hpl]
      exact Nat.not_le.mpr hlt
    rw [if_neg hexp]
  · intro hge
    rw [hbase secret, if_neg h1, if_neg h2, Hdec]
    simp only []
    rw [Hpar]
    simp only []
    have hexp : pl.exp ≤ now := by
      simp only [hpl]
      exact hge
    rw [if_pos hexp]
  · intro junk
    have hdata : (createSession mac enc ser secret t0 nonce user ++ "." ++ junk).data =
        E.data ++ '.' :: (S.data ++ '.' :: junk.data) := by
      simp only [createSession, ← hE, ← hS]
      rw [data_append_dot, data_append_dot]
      simp
    have hsplit2 : splitCh '.' (createSession mac enc ser secret t0 nonce user ++ "." ++ junk).data =
        E.data :: S.data :: splitCh '.' junk.data := by
      rw [hdata, splitCh_append _ HdotE, splitCh_append _ HdotS]
    rw [verifySession_eval mac dec par secret now _ E.data S.data _ hsplit2,
      verifySession_eval mac dec par secret now _ E.data S.data [] hsplit]
  · intro secret' hne
    rw [hbase secret', if_neg (by simp [HneE, HneS]), if_pos (by simpa using hne)]
  · intro P S' hdP hdS hne
    have hd : (P ++ "." ++ S').data = P.data ++ '.' :: S'.data := data_append_dot P S'
    have hsp : splitCh '.' (P ++ "." ++ S').data = [P.data, S'.data] := by
      rw [hd, splitCh_append _ hdP, splitCh_of_not_mem hdS]
    rw [verifySession_eval mac dec par secret now _ P.data S'.data [] hsp]
    simp only [mk_data]
    by_cases hPe : P = "" ∨ S' = ""
    · rw [if_pos hPe]
    · rw [if_neg hPe, if_pos (by simpa using hne)]
  · intro t hdt
    by_cases hte : t = ""
    · simp [verifySession, hte]
    · simp [verifySession, hte, splitCh_of_not_mem hdt]

/-- Demonstration MAC for concrete evaluations: prepends the key.  It is
collision-free for a fixed key, which is all the concrete instances use. -/
def macDemo (s m : String) : String := s ++ "|" ++ m

/-- Demonstration serializer standing in for `JSON.stringify` on session
payloads (injective on payloads whose strings avoid `;`). -/
def serDemo (p : SessionPayload) : String :=
  Nat.repr p.exp ++ ";" ++ p.nonce ++ ";" ++ p.user

/-- The concrete payload of a session issued at `t0 = 100` for user
`alice`: `exp = 100 + SESSION_TTL_MS = 28800100`. -/
def plDemo : SessionPayload := ⟨28800100, "n1", "alice"⟩

/-- Demonstration parser standing in for `JSON.parse` plus the field type
checks: recognizes exactly the serialized demo payload. -/
def parDemo (s : String) : Option SessionPayload :=
  if s = serDemo plDemo then some plDemo else none

/-- The token issued by `createSession` at `t0 = 100` under secret `k` in
the demonstration instantiation. -/
def tokDemo : String := createSession macDemo id serDemo "k" 100 "n1" "alice"

/-- C2 (counterexample): appending `".x"` to a valid token alters the token
string, yet `verifySession` still accepts it and returns the original
payload at a time well before expiry — refuting the claim that any altered
token makes `verifySession` return `null`. -/
theorem session_altered_token_accepted :
    verifySession macDemo some parDemo "k" 200 (some (tokDemo ++ ".x")) =
      some plDemo
    ∧ tokDemo ++ ".x" ≠ tokDemo := by
  constructor
  · decide
  · decide

/-- Witness for C2 (amended): the characterization applied at the concrete
demonstration instantiation, at a time before expiry, accepts the untouched
token. -/
theorem session_token_characterization_witness :
    verifySession macDemo some parDemo "k" 200 (some tokDemo) = some plDemo :=
  (session_token_characterization macDemo id some serDemo parDemo "k" 100 200
    "n1" "alice" (by decide) (by decide) (by decide) (by decide) (by decide)
    (by decide)).1 (by decide)

/-! ## S3ConfigStore (`settings.ts` in `src/constants.ts`) -/

structure S3ConfigProfile where
  id : String
  name : String
  region : String
  endpoint : Option String := none
  accessKeyId : String
  secretAccessKey : String
  bucket : String
  -- the profile's optional key-prefix field (its source name is a Lean keyword)
  pfx : Option String := none
  isDefault : Option Bool := none
deriving DecidableEq, Repr

structure AppSettings where
  s3Configs : List S3ConfigProfile
deriving DecidableEq, Repr

/-- Embedding of `readSettings`: read `data/settings.json` (`none` models a
missing or unreadable file), `JSON.parse` it (the parameter `parse`, `none`
modelling a parse exception); any failure falls back to the default
`{s3Configs: []}`. -/
def readSettings (parse : String → Option AppSettings)
    (file : Option String) : AppSettings :=
  match file with
  | none => ⟨[]⟩
  | some content =>
    match parse content with
    | none => ⟨[]⟩
    | some s => s

/-- Embedding of `addS3Config`: re-read the settings, append the new profile
with a freshly minted id, and write the resulting document (the written
document is the first component of the result). -/
def addS3Config (parse : String → Option AppSettings) (file : Option String)
    (config : S3ConfigProfile) (newId : String) :
    AppSettings × S3ConfigProfile :=
  let settings := readSettings parse file
  let newConfig := { config with id := newId }
  (⟨settings.s3Configs ++ [newConfig]⟩, newConfig)

/-- Embedding of `updateS3Config`: `findIndex` on the re-read document; on a
miss return `null` (no write); otherwise merge the updates into the profile
at that index and write. -/
def updateS3Config (parse : String → Option AppSettings) (file : Option String)
    (id : String) (updates : S3ConfigProfile → S3ConfigProfile) :
    Option (AppSettings × S3ConfigProfile) :=
  let settings := readSettings parse file
  match settings.s3Configs.findIdx? (fun c => c.id = id) with
  | none => none
  | some i =>
    match settings.s3Configs[i]? with
    | none => none
    | some old =>
      let newCfg := updates old
      some (⟨settings.s3Configs.set i newCfg⟩, newCfg)

/-- Embedding of `deleteS3Config`: `findIndex` then `splice`; `none` models
the `false` return (no write). -/
def deleteS3Config (parse : String → Option AppSettings) (file : Option String)
    (id : String) : Option AppSettings :=
  let settings := readSettings parse file
  match settings.s3Configs.findIdx? (fun c => c.id = id) with
  | none => none
  | some i => some ⟨settings.s3Configs.eraseIdx i⟩

/-- Embedding of `getS3Config`: linear search of the re-read document. -/
def getS3Config (settings : AppSettings) (id : String) :
    Option S3ConfigProfile :=
  settings.s3Configs.find? (fun c => c.id = id)

/-- C10: a missing or unparseable `data/settings.json` is read as the
default `{s3Configs: []}` (no exception escapes), every config lookup on
such a document misses, and the next create appends to the empty list —
the document written by `addS3Config` holds exactly the new profile —
while update/delete on the empty state find nothing and write nothing. -/
theorem readSettings_defaults_on_missing_or_corrupt :
    (∀ parse : String → Option AppSettings,
      readSettings parse none = ⟨[]⟩)
    ∧ (∀ (parse : String → Option AppSettings) (content : String),
      parse content = none → readSettings parse (some content) = ⟨[]⟩)
    ∧ (∀ (parse : String → Option AppSettings) (content : String)
        (cid : String), parse content = none →
      getS3Config (readSettings parse (some content)) cid = none)
    ∧ (∀ (parse : String → Option AppSettings) (content : String)
        (cfg : S3ConfigProfile) (newId : String), parse content = none →
      addS3Config parse (some content) cfg newId =
        (⟨[{ cfg with id := newId }]⟩, { cfg with id := newId }))
    ∧ (∀ (parse : String → Option AppSettings) (content : String)
        (cid : String) (upd : S3ConfigProfile → S3ConfigProfile),
      parse content = none →
      updateS3Config parse (some content) cid upd = none)
    ∧ (∀ (parse : String → Option AppSettings) (content : String)
        (cid : String), parse content = none →
      deleteS3Config parse (some content) cid = none) := by
  refine ⟨fun parse => rfl, ?_, ?_, ?_, ?_, ?_⟩
  · intro parse content h
    simp [readSettings, h]
  · intro parse content cid h
    simp [readSettings, getS3Config, h]
  · intro parse content cfg newId h
    simp [readSettings, addS3Config, h]
  · intro parse content cid upd h
    simp [readSettings, updateS3Config, h, List.findIdx?]
  · intro parse content cid h
    simp [readSettings, deleteS3Config, h, List.findIdx?]

/-- Witness for C10: a parser that rejects the corrupt document `"{oops"`
yields the default settings, and the next create writes a document holding
exactly the created profile. -/
theorem readSettings_defaults_witness :
    readSettings (fun _ => none) (some "\x7boops") = ⟨[]⟩
    ∧ addS3Config (fun _ => none) (some "\x7boops")
        ⟨"", "p", "us-east-1", none, "ak", "sk", "bkt", none, none⟩ "id9" =
      (⟨[⟨"id9", "p", "us-east-1", none, "ak", "sk", "bkt", none, none⟩]⟩,
        ⟨"id9", "p", "us-east-1", none, "ak", "sk", "bkt", none, none⟩) :=
  ⟨readSettings_defaults_on_missing_or_corrupt.1 (fun _ => none) ▸ rfl,
    readSettings_defaults_on_missing_or_corrupt.2.2.2.1 (fun _ => none)
      "\x7boops" ⟨"", "p", "us-east-1", none, "ak", "sk", "bkt", none, none⟩
      "id9" rfl⟩

/-! ## S3ConnectionRegistry (`s3Sessions` and `/api/s3/connect` in
`server.ts`)

The map value `{configId, adapter}` is modelled by its `configId`: the
adapter is constructed deterministically from the profile with that id.
The registry is the in-process `Map` keyed by session id. -/

abbrev S3Sessions := List (String × String)

/-- Embedding of `setSessionS3`: `Map.set` keyed by the session id alone —
any previous binding of the session is replaced. -/
def setSessionS3 (m : S3Sessions) (sessionId configId : String) : S3Sessions :=
  (sessionId, configId) :: m.filter (fun b => b.1 ≠ sessionId)

/-- Embedding of `getSessionS3`: `Map.get`. -/
def getSessionS3 (m : S3Sessions) (sessionId : String) : Option String :=
  (m.find? (fun b => b.1 = sessionId)).map Prod.snd

/-- Embedding of `clearSessionS3`: `Map.delete`. -/
def clearSessionS3 (m : S3Sessions) (sessionId : String) : S3Sessions :=
  m.filter (fun b => b.1 ≠ sessionId)

inductive ConnectResult where
  | missingConfigId
  | notFound
  | ok
deriving DecidableEq, Repr

/-- Embedding of the `/api/s3/connect` handler for an authenticated
session: reject a falsy `configId` (400), look the profile up in the
settings document (404 on a miss), otherwise construct the adapter and
record the binding via `setSessionS3`. -/
def connectRoute (settings : AppSettings) (m : S3Sessions)
    (sessionId : String) (configId : Option String) :
    ConnectResult × S3Sessions :=
  match configId with
  | none => (.missingConfigId, m)
  | some cid =>
    if cid = "" then (.missingConfigId, m)
    else
      match getS3Config settings cid with
      | none => (.notFound, m)
      | some _ => (.ok, setSessionS3 m sessionId cid)

/-- The distinct `configId` values live across the whole registry. -/
def liveConfigIds (m : S3Sessions) : List String :=
  (m.map Prod.snd).dedup

/-- Demonstration settings document with six configured profiles. -/
def settingsDemo : AppSettings :=
  ⟨["c1", "c2", "c3", "c4", "c5", "c6"].map
    (fun i => ⟨i, i, "us-east-1", none, "ak", "sk", "bkt", none, none⟩)⟩

/-- Demonstration registry state: five sessions bound to five distinct
configs — the default cap of `MAX_S3_CONNECTIONS = 5` named by the spec. -/
def regDemo : S3Sessions :=
  [("s1", "c1"), ("s2", "c2"), ("s3", "c3"), ("s4", "c4"), ("s5", "c5")]

/-- C3 (counterexample): with five distinct configs already live — the
spec's default cap — connecting a sixth, not-already-live config succeeds
and brings the global distinct count to six: the handler contains no
`AtLimit` check at all. -/
theorem s3_connect_no_cap_counterexample :
    (connectRoute settingsDemo regDemo "s6" (some "c6")).1 = .ok
    ∧ (liveConfigIds (connectRoute settingsDemo regDemo "s6" (some "c6")).2).length = 6 := by
  constructor
  · decide
  · decide

theorem find_filter_ne {m : S3Sessions} {sid sid' : String} (h : sid' ≠ sid) :
    (m.filter (fun b => b.1 ≠ sid)).find? (fun b => b.1 = sid') =
      m.find? (fun b => b.1 = sid') := by
  rw [List.find?_filter]
  congr 1
  funext b
  by_cases hb : b.1 = sid'
  · simp [hb, h]
  · simp [hb]

/-- C3 (amended): the connect handler enforces no connection cap: whenever
the requested profile exists it succeeds (`ok`, never an `AtLimit`
failure) and records the binding, regardless of how many distinct configs
are already live; the only bound on the distinct live-config count is the
number of bound sessions. -/
theorem s3_connect_always_succeeds (settings : AppSettings) (m : S3Sessions)
    (sid cid : String) (profile : S3ConfigProfile)
    (hfound : getS3Config settings cid = some profile) (hne : cid ≠ "") :
    connectRoute settings m sid (some cid) = (.ok, setSessionS3 m sid cid)
    ∧ getSessionS3 (setSessionS3 m sid cid) sid = some cid
    ∧ (liveConfigIds m).length ≤ m.length := by
  refine ⟨?_, ?_, ?_⟩
  · simp [connectRoute, hne, hfound]
  · simp [getSessionS3, setSessionS3, List.find?]
  · calc (liveConfigIds m).length ≤ (m.map Prod.snd).length :=
          List.Sublist.length_le (List.dedup_sublist _)
      _ = m.length := List.length_map _ _

/-- Witness for C3 (amended): the sixth connect of the counterexample state
succeeds through the amended theorem. -/
theorem s3_connect_always_succeeds_witness :
    connectRoute settingsDemo regDemo "s6" (some "c6") =
      (.ok, setSessionS3 regDemo "s6" "c6") :=
  (s3_connect_always_succeeds settingsDemo regDemo "s6" "c6"
    ⟨"c6", "c6", "us-east-1", none, "ak", "sk", "bkt", none, none⟩
    (by decide) (by decide)).1

/-- Reachable registry states: the empty map, plus everything obtainable by
the connect and disconnect handlers. -/
inductive RegistryReachable : S3Sessions → Prop where
  | empty : RegistryReachable []
  | connect (m : S3Sessions) (sid cid : String) :
      RegistryReachable m → RegistryReachable (setSessionS3 m sid cid)
  | disconnect (m : S3Sessions) (sid : String) :
      RegistryReachable m → RegistryReachable (clearSessionS3 m sid)

theorem reachable_keys_nodup {m : S3Sessions} (h : RegistryReachable m) :
    (m.map Prod.fst).Nodup := by
  induction h with
  | empty => simp
  | connect m sid cid _ ih =>
    simp only [setSessionS3, List.map_cons, List.nodup_cons]
    constructor
    · intro hmem
      rcases List.mem_map.mp hmem with ⟨b, hb, hfst⟩
      have := List.of_mem_filter hb
      simp [hfst] at this
    · exact ih.sublist ((List.filter_sublist m).map Prod.fst)
  | disconnect m sid _ ih =>
    exact ih.sublist ((List.filter_sublist m).map Prod.fst)

/-- C9: the registry keys bindings by session id alone, so in every
reachable state each session holds at most one live binding (the key list
has no duplicates); connecting overwrites the session's previous binding —
the lookup used by every subsequent S3 file operation returns the most
recently connected config — and leaves other sessions untouched. -/
theorem s3_registry_single_binding_per_session :
    (∀ m : S3Sessions, RegistryReachable m → (m.map Prod.fst).Nodup)
    ∧ (∀ (m : S3Sessions) (sid cid : String),
      getSessionS3 (setSessionS3 m sid cid) sid = some cid)
    ∧ (∀ (m : S3Sessions) (sid cid sid' : String), sid' ≠ sid →
      getSessionS3 (setSessionS3 m sid cid) sid' = getSessionS3 m sid') := by
  refine ⟨fun m h => reachable_keys_nodup h, ?_, ?_⟩
  · intro m sid cid
    simp [getSessionS3, setSessionS3, List.find?]
  · intro m sid cid sid' hne
    have hss : ¬ (sid = sid') := fun hc => hne hc.symm
    simp only [getSessionS3, setSessionS3, List.find?]
    have hd : (decide ((sid, cid).1 = sid')) = false := by
      simp [hss]
    simp only [hd, find_filter_ne hne]

/-- Witness for C9: a registry where `s1` connected `c1` and then `c2` —
`s1` holds exactly one binding, the most recent one, and `s2` is
unaffected. -/
theorem s3_registry_single_binding_witness :
    ((setSessionS3 (setSessionS3 [] "s1" "c1") "s1" "c2").map Prod.fst).Nodup
    ∧ getSessionS3 (setSessionS3 (setSessionS3 [] "s1" "c1") "s1" "c2") "s1" =
        some "c2"
    ∧ getSessionS3 (setSessionS3 [("s2", "c9")] "s1" "c1") "s2" =
        getSessionS3 [("s2", "c9")] "s2" :=
  ⟨s3_registry_single_binding_per_session.1 _
      (.connect _ "s1" "c2" (.connect _ "s1" "c1" .empty)),
    s3_registry_single_binding_per_session.2.1 (setSessionS3 [] "s1" "c1")
      "s1" "c2",
    s3_registry_single_binding_per_session.2.2 [("s2", "c9")] "s1" "c1" "s2"
      (by decide)⟩

/-! ## Storage entries and the listing sort

Both adapters sort listings with the comparator

  if (a.type !== b.type) return a.type === "directory" ? -1 : 1;
  return a.name.localeCompare(b.name);

`localeCompare` under the default locale is modelled as case-insensitive
code-point comparison with the raw code-point comparison as tie-break
(faithful for ASCII names: primary collation weights ignore case, case
decides ties).  `Array.prototype.sort` is modelled by insertion sort with
the comparator's non-strict order — any comparison sort yields a sequence
sorted with respect to a consistent comparator, which is all the theorems
use. -/

inductive EntryType where
  | directory
  | file
deriving DecidableEq, Repr

structure StorageEntry where
  name : String
  path : String
  type : EntryType
  size : Nat
  modified : Nat
deriving DecidableEq, Repr

/-- Code-point lexicographic comparison of character lists (JavaScript
string comparison of the underlying units, for the Basic Multilingual
Plane). -/
def cmpChars : List Char → List Char → Ordering
  | [], [] => .eq
  | [], _ :: _ => .lt
  | _ :: _, [] => .gt
  | a :: as, b :: bs =>
    match compare a.toNat b.toNat with
    | .lt => .lt
    | .gt => .gt
    | .eq => cmpChars as bs

/-- Model of `String.prototype.localeCompare` under the default locale:
compare case-insensitively first, break ties by raw code points. -/
def localeCmp (x y : List Char) : Ordering :=
  match cmpChars (x.map Char.toLower) (y.map Char.toLower) with
  | .eq => cmpChars x y
  | .lt => .lt
  | .gt => .gt

/-- The listing comparator shared by `LocalStorageAdapter.list` and
`S3StorageAdapter.list`: directories first, then `localeCompare` on
names. -/
def entryCmp (a b : StorageEntry) : Ordering :=
  if a.type ≠ b.type then (if a.type = .directory then .lt else .gt)
  else localeCmp a.name.data b.name.data

/-- The non-strict order induced by the comparator. -/
def entryLe (a b : StorageEntry) : Prop := entryCmp a b ≠ .gt

instance : DecidableRel entryLe := fun a b => by
  unfold entryLe
  infer_instance

/-- The sort both adapters apply, modelling `entries.sort(comparator)`. -/
def sortEntries (l : List StorageEntry) : List StorageEntry :=
  List.insertionSort entryLe l

theorem char_toNat_inj {a b : Char} (h : a.toNat = b.toNat) : a = b := by
  apply Char.ext
  apply UInt32.ext
  simpa [Char.toNat] using h

theorem cmpChars_eq_iff (x y : List Char) : cmpChars x y = .eq ↔ x = y := by
  induction x generalizing y with
  | nil => cases y <;> simp [cmpChars]
  | cons a as ih =>
    cases y with
    | nil => simp [cmpChars]
    | cons b bs =>
      simp only [cmpChars]
      rcases h : compare a.toNat b.toNat with hlt | heq | hgt
      · simp only []
        constructor
        · intro hc
          exact absurd hc (by simp)
        · intro hc
          have hab : a = b := (List.cons.injEq .. ▸ hc).1
          rw [hab] at h
          simp [Nat.compare_eq_lt] at h
      · simp only []
        rw [ih bs]
        have hab : a = b := char_toNat_inj (by simpa [Nat.compare_eq_eq] using h)
        subst hab
        simp
      · simp only []
        constructor
        · intro hc
          exact absurd hc (by simp)
        · intro hc
          have hab : a = b := (List.cons.injEq .. ▸ hc).1
          rw [hab] at h
          simp [Nat.compare_eq_gt] at h

theorem cmpChars_swap (x y : List Char) : cmpChars y x = (cmpChars x y).swap := by
  induction x generalizing y with
  | nil => cases y <;> simp [cmpChars, Ordering.swap]
  | cons a as ih =>
    cases y with
    | nil => simp [cmpChars, Ordering.swap]
    | cons b bs =>
      simp only [cmpChars]
      rcases h : compare a.toNat b.toNat with _ | _ | _
      · have : compare b.toNat a.toNat = .gt :=
          Nat.compare_eq_gt.mpr (Nat.compare_eq_lt.mp h)
        simp [this, Ordering.swap]
      · have hab : a.toNat = b.toNat := Nat.compare_eq_eq.mp h
        have : compare b.toNat a.toNat = .eq := Nat.compare_eq_eq.mpr hab.symm
        simp [this, ih bs]
      · have : compare b.toNat a.toNat = .lt :=
          Nat.compare_eq_lt.mpr (Nat.compare_eq_gt.mp h)
        simp [this, Ordering.swap]

theorem cmpChars_lt_trans {x y z : List Char} (h1 : cmpChars x y = .lt)
    (h2 : cmpChars y z = .lt) : cmpChars x z = .lt := by
  induction x generalizing y z with
  | nil =>
    cases z with
    | nil =>
      cases y with
      | nil => exact h2
      | cons b bs => simp [cmpChars] at h2
    | cons c cs => simp [cmpChars]
  | cons a as ih =>
    cases y with
    | nil => simp [cmpChars] at h1
    | cons b bs =>
      cases z with
      | nil => simp [cmpChars] at h2
      | cons c cs =>
        simp only [cmpChars] at h1 h2 ⊢
        rcases hab : compare a.toNat b.toNat with _ | _ | _ <;> rw [hab] at h1
        · rcases hbc : compare b.toNat c.toNat with _ | _ | _ <;> rw [hbc] at h2
          · rw [Nat.compare_eq_lt.mpr
              (Nat.lt_trans (Nat.compare_eq_lt.mp hab) (Nat.compare_eq_lt.mp hbc))]
          · rw [Nat.compare_eq_eq.mp hbc] at hab
            rw [hab]
          · exact absurd h2 (by simp)
        · rcases hbc : compare b.toNat c.toNat with _ | _ | _ <;> rw [hbc] at h2
          · have hac : compare a.toNat c.toNat = .lt := by
              rw [Nat.compare_eq_eq.mp hab]
              exact hbc
            rw [hac]
          · have hac : compare a.toNat c.toNat = .eq := by
              rw [Nat.compare_eq_eq.mp hab]
              exact hbc
            rw [hac]
            exact ih h1 h2
          · exact absurd h2 (by simp)
        · exact absurd h1 (by simp)

theorem localeCmp_swap (x y : List Char) : localeCmp y x = (localeCmp x y).swap := by
  simp only [localeCmp, cmpChars_swap x y,
    cmpChars_swap (x.map Char.toLower) (y.map Char.toLower)]
  rcases cmpChars (x.map Char.toLower) (y.map Char.toLower) with _ | _ | _ <;>
    simp [Ordering.swap]

theorem localeCmp_eq_imp {x y : List Char} (h : localeCmp x y = .eq) : x = y := by
  simp only [localeCmp] at h
  rcases hl : cmpChars (x.map Char.toLower) (y.map Char.toLower) with _ | _ | _ <;>
    simp only [hl] at h
  · simp at h
  · exact (cmpChars_eq_iff x y).mp h
  · simp at h

theorem localeCmp_lt_trans {x y z : List Char} (h1 : localeCmp x y = .lt)
    (h2 : localeCmp y z = .lt) : localeCmp x z = .lt := by
  simp only [localeCmp] at h1 h2 ⊢
  rcases hxy : cmpChars (x.map Char.toLower) (y.map Char.toLower) with _ | _ | _ <;>
    rw [hxy] at h1
  · rcases hyz : cmpChars (y.map Char.toLower) (z.map Char.toLower) with _ | _ | _ <;>
      rw [hyz] at h2
    · rw [cmpChars_lt_trans hxy hyz]
    · rw [(cmpChars_eq_iff _ _).mp hyz] at hxy
      rw [hxy]
    · exact absurd h2 (by simp)
  · rcases hyz : cmpChars (y.map Char.toLower) (z.map Char.toLower) with _ | _ | _ <;>
      rw [hyz] at h2
    · rw [(cmpChars_eq_iff _ _).mp hxy]
      rw [hyz]
    · have hxz : cmpChars (x.map Char.toLower) (z.map Char.toLower) = .eq := by
        rw [(cmpChars_eq_iff _ _).mp hxy]
        exact hyz
      rw [hxz]
      exact cmpChars_lt_trans h1 h2
    · exact absurd h2 (by simp)
  · exact absurd h1 (by simp)

theorem localeCmp_not_gt_trans {x y z : List Char} (h1 : localeCmp x y ≠ .gt)
    (h2 : localeCmp y z ≠ .gt) : localeCmp x z ≠ .gt := by
  rcases hxy : localeCmp x y with _ | _ | _
  · rcases hyz : localeCmp y z with _ | _ | _
    · simp [localeCmp_lt_trans hxy hyz]
    · rw [← localeCmp_eq_imp hyz, hxy]
      simp
    · exact absurd hyz h2
  · rw [localeCmp_eq_imp hxy]
    exact h2
  · exact absurd hxy h1

theorem entryLe_total (a b : StorageEntry) : entryLe a b ∨ entryLe b a := by
  unfold entryLe entryCmp
  by_cases ht : a.type = b.type
  · have ht' : ¬ b.type ≠ a.type := by simp [ht]
    rw [if_neg (by simp [ht]), if_neg ht']
    rcases h : localeCmp a.name.data b.name.data with _ | _ | _
    · left
      simp
    · left
      simp [h]
    · right
      rw [localeCmp_swap, h]
      simp [Ordering.swap]
  · have ht' : b.type ≠ a.type := fun h => ht h.symm
    rw [if_pos ht, if_pos ht']
    rcases hd : a.type with _ | _
    · left
      simp
    · have hb : b.type = .directory := by
        rcases hbt : b.type with _ | _
        · rfl
        · rw [hd, hbt] at ht
          simp at ht
      right
      simp [hb]

theorem entryLe_trans (a b c : StorageEntry) (h1 : entryLe a b)
    (h2 : entryLe b c) : entryLe a c := by
  by_cases hab : a.type = b.type
  · by_cases hbc : b.type = c.type
    · have hac : a.type = c.type := hab.trans hbc
      unfold entryLe entryCmp at h1 h2 ⊢
      rw [if_neg (by simp [hab])] at h1
      rw [if_neg (by simp [hbc])] at h2
      rw [if_neg (by simp [hac])]
      exact localeCmp_not_gt_trans h1 h2
    · unfold entryLe entryCmp at h2 ⊢
      rw [if_pos hbc] at h2
      have hbd : b.type = .directory := by
        by_cases hb : b.type = .directory
        · exact hb
        · rw [if_neg hb] at h2
          exact absurd rfl h2
      have had : a.type = .directory := hab.trans hbd
      have hcf : c.type ≠ .directory := fun hcd => hbc (hbd.trans hcd.symm)
      have hac : a.type ≠ c.type := by
        rw [had]
        exact fun h => hcf h.symm
      rw [if_pos hac, if_pos had]
      simp
  · unfold entryLe entryCmp at h1 h2 ⊢
    rw [if_pos hab] at h1
    have had : a.type = .directory := by
      by_cases hadir : a.type = .directory
      · exact hadir
      · rw [if_neg hadir] at h1
        exact absurd rfl h1
    have hbf : b.type ≠ .directory := fun hbd => hab (had.trans hbd.symm)
    by_cases hcd : c.type = .directory
    · have hbc : b.type ≠ c.type := by
        rw [hcd]
        exact hbf
      rw [if_pos hbc] at h2
      rw [if_neg hbf] at h2
      exact absurd rfl h2
    · have hac : a.type ≠ c.type := by
        rw [had]
        exact fun h => hcd h.symm
      rw [if_pos hac, if_pos had]
      simp

instance : IsTotal StorageEntry entryLe := ⟨entryLe_total⟩

instance : IsTrans StorageEntry entryLe := ⟨entryLe_trans⟩

theorem sortEntries_sorted (l : List StorageEntry) :
    (sortEntries l).Sorted entryLe :=
  List.sorted_insertionSort entryLe l

theorem sortEntries_perm (l : List StorageEntry) :
    (sortEntries l).Perm l :=
  List.perm_insertionSort entryLe l

/-! ## S3 adapter (`S3StorageAdapter` in `src/constants.ts`)

The object store is a list of objects `{key, size, modified}` (content
bytes are summarized by their length, which is all the listing surface
reports).  `ListObjectsV2` is modelled from the S3 API contract: keys
matching `Prefix` are returned in lexicographic key order; with
`Delimiter="/"` every key whose remainder after the prefix contains the
delimiter is rolled up into the common prefix extending through the first
delimiter occurrence; `MaxKeys` bounds keys plus common prefixes and sets
`IsTruncated` when more remain.  The page bound is a parameter `maxKeys`
(the service caps it at 1000, the adapter's default). -/

structure S3Object where
  key : String
  size : Nat
  modified : Nat
deriving DecidableEq, Repr

structure S3ListResponse where
  commonPfxs : List String
  contents : List S3Object
  isTruncated : Bool
deriving DecidableEq, Repr

/-- Lexicographic key order used by the S3 service for listings. -/
def keyLe (a b : S3Object) : Prop := cmpChars a.key.data b.key.data ≠ .gt

instance : DecidableRel keyLe := fun a b => by
  unfold keyLe
  infer_instance

/-- Delimiter grouping pass of `ListObjectsV2`: objects in key order are
either rolled into common prefixes (deduplicated — duplicates are adjacent
in key order) or emitted as contents, until `maxKeys` items have been
produced. -/
def listDelimGo (pfxData : List Char) (maxKeys : Nat) :
    List S3Object → List String → List S3Object → Nat → S3ListResponse
  | [], cps, cts, _ => ⟨cps.reverse, cts.reverse, false⟩
  | o :: rest, cps, cts, count =>
    let rem := o.key.data.drop pfxData.length
    if '/' ∈ rem then
      let cp := String.mk (pfxData ++ rem.takeWhile (fun c => c ≠ '/') ++ ['/'])
      if cps.head? = some cp then listDelimGo pfxData maxKeys rest cps cts count
      else if count < maxKeys then
        listDelimGo pfxData maxKeys rest (cp :: cps) cts (count + 1)
      else ⟨cps.reverse, cts.reverse, true⟩
    else
      if count < maxKeys then
        listDelimGo pfxData maxKeys rest cps (o :: cts) (count + 1)
      else ⟨cps.reverse, cts.reverse, true⟩

/-- Undelimited pass of `ListObjectsV2`: matching objects in key order up
to `maxKeys`. -/
def listFlatGo (maxKeys : Nat) :
    List S3Object → List S3Object → Nat → List S3Object × Bool
  | [], cts, _ => (cts.reverse, false)
  | o :: rest, cts, count =>
    if count < maxKeys then listFlatGo maxKeys rest (o :: cts) (count + 1)
    else (cts.reverse, true)

/-- Model of the `ListObjectsV2` service call. -/
def listObjectsV2 (bucket : List S3Object) (pfxStr : String) (delim : Bool)
    (maxKeys : Nat) : S3ListResponse :=
  let matching := bucket.filter (fun o => pfxStr.data.isPrefixOf o.key.data)
  let sorted := List.insertionSort keyLe matching
  match delim with
  | true => listDelimGo pfxStr.data maxKeys sorted [] [] 0
  | false =>
    let flat := listFlatGo maxKeys sorted [] 0
    ⟨[], flat.1, flat.2⟩

/-- One leading slash removed, as `path.replace(/^\//, "")`. -/
def dropLeadSlash (s : String) : String :=
  if s.data.head? = some '/' then String.mk s.data.tail else s

/-- One trailing slash removed, as `.replace(/\/$/, "")`. -/
def dropTrailSlash (s : String) : String :=
  if s.data.getLast? = some '/' then String.mk s.data.dropLast else s

/-- Embedding of `S3StorageAdapter.normalizeKey`: strip the surrounding
slashes and prepend the profile's key prefix when one is configured. -/
def normalizeKey (pfx : String) (path : String) : String :=
  let cleanPath := dropTrailSlash (dropLeadSlash path)
  if pfx ≠ "" then pfx ++ "/" ++ cleanPath else cleanPath

/-- Embedding of `S3StorageAdapter.stripPrefix` (the inverse mapping from
storage keys back to virtual paths). -/
def stripPfx (pfx : String) (key : String) : String :=
  if pfx ≠ "" ∧ (pfx ++ "/").data.isPrefixOf key.data then
    String.mk (key.data.drop (pfx.data.length + 1))
  else key

/-- Leaf name of a directory common prefix:
`.split("/").filter(Boolean).pop() || ""`. -/
def lastSegDir (s : String) : String :=
  String.mk (((splitCh '/' s.data).filter (fun seg => seg ≠ [])).getLastD [])

/-- Leaf name of a file key: `.split("/").pop() || ""`. -/
def lastSegFile (s : String) : String :=
  String.mk ((splitCh '/' s.data).getLastD [])

/-- Embedding of `S3StorageAdapter.list`: issue `ListObjectsV2` with the
normalized path as `Prefix` and `"/"` as `Delimiter` (`MaxKeys` from the
truthy `limit` or 1000), map `CommonPrefixes` to directory entries (size 0,
`mtime = now`), map `Contents` other than the exact prefix object to file
entries, sort with the shared comparator, and apply the truthy-offset
slice.  Returns the entry list and the unsliced total. -/
def s3list (pfx : String) (bucket : List S3Object) (now : Nat)
    (path : String) (limit : Option Nat) (offset : Nat) :
    List StorageEntry × Nat :=
  let pfxKey := normalizeKey pfx path
  let maxKeys := match limit with
    | none => 1000
    | some 0 => 1000
    | some l => l
  let resp := listObjectsV2 bucket pfxKey true maxKeys
  let dirEntries := resp.commonPfxs.map (fun cp =>
    { name := lastSegDir (stripPfx pfx cp),
      path := "/" ++ stripPfx pfx cp,
      type := EntryType.directory, size := 0, modified := now })
  let fileEntries := resp.contents.filterMap (fun o =>
    if o.key ≠ "" ∧ o.key ≠ pfxKey then
      some { name := lastSegFile (stripPfx pfx o.key),
             path := "/" ++ stripPfx pfx o.key,
             type := EntryType.file, size := o.size, modified := o.modified }
    else none)
  let entries := sortEntries (dirEntries ++ fileEntries)
  (if offset ≠ 0 then entries.drop offset else entries, entries.length)

/-- Model of `PutObject`: upsert the object at its key. -/
def putObject (bucket : List S3Object) (key : String) (size now : Nat) :
    List S3Object :=
  ⟨key, size, now⟩ :: bucket.filter (fun o => o.key ≠ key)

/-- Embedding of `S3StorageAdapter.mkdir`: put a zero-byte placeholder at
`normalizeKey(path)` with exactly one trailing slash. -/
def s3mkdir (pfx : String) (bucket : List S3Object) (path : String)
    (now : Nat) : List S3Object :=
  let key := dropTrailSlash (normalizeKey pfx path) ++ "/"
  putObject bucket key 0 now

/-- Embedding of `S3StorageAdapter.write`: put the content at the
normalized key (`size` is the byte length of the body). -/
def s3write (pfx : String) (bucket : List S3Object) (path : String)
    (size now : Nat) : List S3Object :=
  putObject bucket (normalizeKey pfx path) size now

/-- Model of `DeleteObject`: removing an absent key succeeds as a no-op,
as in S3. -/
def deleteObject (bucket : List S3Object) (key : String) : List S3Object :=
  bucket.filter (fun o => o.key ≠ key)

/-- Embedding of `S3StorageAdapter.delete`: one `ListObjectsV2` call with
`Prefix = key + "/"` (a single page — the code sends no continuation
token), delete each listed object, then delete the named key itself. -/
def s3delete (pageSize : Nat) (pfx : String) (bucket : List S3Object)
    (path : String) : List S3Object :=
  let key := normalizeKey pfx path
  let resp := listObjectsV2 bucket (key ++ "/") false pageSize
  let b1 := resp.contents.foldl (fun b o => deleteObject b o.key) bucket
  deleteObject b1 key

/-- Embedding of `LocalStorageAdapter.list` after the host I/O: `raw` is
the readdir-and-stat product; the adapter sorts it and applies
`limit ? mapped.slice(offset, offset + limit) : mapped` (a falsy `limit`
skips the offset as well). -/
def localList (raw : List StorageEntry) (limit : Option Nat) (offset : Nat) :
    List StorageEntry × Nat :=
  let sorted := sortEntries raw
  let total := sorted.length
  match limit with
  | none => (sorted, total)
  | some 0 => (sorted, total)
  | some l => ((sorted.drop offset).take l, total)

/-- C4: evaluation of the S3 directory simulation from an empty bucket.
`mkdir "/folder"` creates the `folder/` placeholder (and `pre/folder/`
under a profile prefix `pre`), and `list "/"` then returns exactly the
directory entry `folder` — these two parts behave as claimed.  But after
`write "/folder/x.txt"` (2 bytes), `list "/folder"` issues `Prefix =
"folder"` without a trailing delimiter, so the service rolls both
`folder/` and `folder/x.txt` into the single common prefix `folder/`: the
listing returns the directory `folder` itself instead of the claimed
`[{name: "x.txt", type: file, size: 2}]`. -/
theorem s3_dir_simulation_eval :
    s3mkdir "" [] "/folder" 5 = [⟨"folder/", 0, 5⟩]
    ∧ s3mkdir "pre" [] "/folder" 5 = [⟨"pre/folder/", 0, 5⟩]
    ∧ s3list "" (s3mkdir "" [] "/folder" 5) 9 "/" none 0 =
        ([⟨"folder", "/folder/", .directory, 0, 9⟩], 1)
    ∧ s3list "" (s3write "" (s3mkdir "" [] "/folder" 5) "/folder/x.txt" 2 7)
          9 "/folder" none 0 =
        ([⟨"folder", "/folder/", .directory, 0, 9⟩], 1) := by
  refine ⟨by decide, by decide, by decide, by decide⟩

/-- Two objects under the `a/` prefix, with a page size of one. -/
def bucketPageDemo : List S3Object := [⟨"a/1", 1, 0⟩, ⟨"a/2", 1, 0⟩]

/-- C8 (counterexample): `delete` issues a single `ListObjectsV2` call and
never follows the truncation marker, so with a page size of 1 (the service
caps pages at 1000) deleting `/a` over `{a/1, a/2}` removes only the first
page's object: `a/2`, an object under the prefix `a/`, survives — refuting
the pagination clause of the claim. -/
theorem s3_delete_single_page_counterexample :
    s3delete 1 "" bucketPageDemo "/a" = [⟨"a/2", 1, 0⟩]
    ∧ ("a/" : String).data.isPrefixOf ("a/2" : String).data = true := by
  constructor
  · decide
  · decide

theorem listFlatGo_complete (maxKeys : Nat) (items cts : List S3Object)
    (count : Nat) (h : count + items.length ≤ maxKeys) :
    listFlatGo maxKeys items cts count = (cts.reverse ++ items, false) := by
  induction items generalizing cts count with
  | nil => simp [listFlatGo]
  | cons o rest ih =>
    have hlt : count < maxKeys := by
      simp only [List.length_cons] at h
      omega
    simp only [listFlatGo, if_pos hlt]
    rw [ih (o :: cts) (count + 1) (by simp only [List.length_cons] at h; omega)]
    simp

theorem mem_foldl_delete (L : List S3Object) (b : List S3Object)
    (x : S3Object) :
    x ∈ L.foldl (fun acc o => deleteObject acc o.key) b ↔
      x ∈ b ∧ x.key ∉ L.map S3Object.key := by
  induction L generalizing b with
  | nil => simp
  | cons o rest ih =>
    rw [List.foldl_cons, ih]
    simp only [deleteObject, List.mem_filter, decide_eq_true_eq,
      List.map_cons, List.mem_cons, not_or]
    tauto

theorem s3delete_contents (pageSize : Nat) (pfx : String)
    (bucket : List S3Object) (path : String)
    (hpage : (bucket.filter (fun o =>
        (normalizeKey pfx path ++ "/").data.isPrefixOf o.key.data)).length ≤
      pageSize) :
    (listObjectsV2 bucket (normalizeKey pfx path ++ "/") false pageSize).contents =
      List.insertionSort keyLe (bucket.filter (fun o =>
        (normalizeKey pfx path ++ "/").data.isPrefixOf o.key.data)) := by
  unfold listObjectsV2
  simp only []
  rw [listFlatGo_complete pageSize _ [] 0
    (by
      rw [(List.perm_insertionSort keyLe _).length_eq]
      simpa using hpage)]
  simp

theorem mem_s3delete (pageSize : Nat) (pfx : String) (bucket : List S3Object)
    (path : String) (o : S3Object)
    (hpage : (bucket.filter (fun o =>
        (normalizeKey pfx path ++ "/").data.isPrefixOf o.key.data)).length ≤
      pageSize) :
    o ∈ s3delete pageSize pfx bucket path ↔
      o ∈ bucket
      ∧ ¬ (normalizeKey pfx path ++ "/").data.isPrefixOf o.key.data = true
      ∧ o.key ≠ normalizeKey pfx path := by
  simp only [s3delete]
  rw [s3delete_contents pageSize pfx bucket path hpage]
  have hdel : ∀ X : List S3Object,
      o ∈ deleteObject X (normalizeKey pfx path) ↔
        o ∈ X ∧ o.key ≠ normalizeKey pfx path := by
    intro X
    simp [deleteObject]
  rw [hdel, mem_foldl_delete]
  constructor
  · rintro ⟨⟨hb, hnk⟩, hne⟩
    refine ⟨hb, ?_, hne⟩
    intro hmatch
    apply hnk
    apply List.mem_map.mpr
    refine ⟨o, ?_, rfl⟩
    exact (List.perm_insertionSort keyLe _).mem_iff.mpr
      (List.mem_filter.mpr ⟨hb, by simpa using hmatch⟩)
  · rintro ⟨hb, hnm, hne⟩
    refine ⟨⟨hb, ?_⟩, hne⟩
    intro hmem
    rcases List.mem_map.mp hmem with ⟨o', ho', hko⟩
    have hmatch := List.of_mem_filter ((List.perm_insertionSort keyLe _).mem_iff.mp ho')
    apply hnm
    rw [← hko]
    simpa using hmatch

theorem s3delete_noop (pageSize : Nat) (pfx : String) (b : List S3Object)
    (path : String)
    (h : b.filter (fun o =>
        (normalizeKey pfx path ++ "/").data.isPrefixOf o.key.data
        || o.key == normalizeKey pfx path) = []) :
    s3delete pageSize pfx b path = b := by
  have hall := List.filter_eq_nil_iff.mp h
  have hmatch : b.filter (fun o =>
      (normalizeKey pfx path ++ "/").data.isPrefixOf o.key.data) = [] := by
    apply List.filter_eq_nil_iff.mpr
    intro o ho
    have := hall o ho
    simp only [Bool.or_eq_true, beq_iff_eq, not_or] at this
    simpa using this.1
  simp only [s3delete]
  rw [s3delete_contents pageSize pfx b path (by rw [hmatch]; simp)]
  rw [hmatch]
  simp only [List.insertionSort, List.foldl_nil]
  apply List.filter_eq_self.mpr
  intro o ho
  have := hall o ho
  simp only [Bool.or_eq_true, beq_iff_eq, not_or] at this
  simpa using this.2

/-- C8 (amended): a single `delete` call removes exactly the objects of one
listing page.  When everything under `key + "/"` fits in one page (the
service page limit is 1000), the result holds the original objects minus
every object under the prefix and minus the named key, it is the identity
when neither the named object nor any prefixed object exists, and running
the delete a second time changes nothing and raises no error (the claim's
idempotence and no-op clauses).  The code never paginates, so objects
beyond the first page survive — the pagination clause of the original
claim fails (see the counterexample). -/
theorem s3_delete_page_characterization (pageSize : Nat) (pfx : String)
    (bucket : List S3Object) (path : String)
    (hpage : (bucket.filter (fun o =>
        (normalizeKey pfx path ++ "/").data.isPrefixOf o.key.data)).length ≤
      pageSize) :
    (∀ o : S3Object, o ∈ s3delete pageSize pfx bucket path ↔
      o ∈ bucket
      ∧ ¬ (normalizeKey pfx path ++ "/").data.isPrefixOf o.key.data = true
      ∧ o.key ≠ normalizeKey pfx path)
    ∧ (bucket.filter (fun o =>
        (normalizeKey pfx path ++ "/").data.isPrefixOf o.key.data
        || o.key == normalizeKey pfx path) = [] →
      s3delete pageSize pfx bucket path = bucket)
    ∧ s3delete pageSize pfx (s3delete pageSize pfx bucket path) path =
        s3delete pageSize pfx bucket path := by
  refine ⟨fun o => mem_s3delete pageSize pfx bucket path o hpage, ?_, ?_⟩
  · intro h
    exact s3delete_noop pageSize pfx bucket path h
  · apply s3delete_noop
    apply List.filter_eq_nil_iff.mpr
    intro o ho
    have hmem := (mem_s3delete pageSize pfx bucket path o hpage).mp ho
    simp only [Bool.or_eq_true, beq_iff_eq, not_or]
    exact ⟨by simpa using hmem.2.1, hmem.2.2⟩

/-- Witness for C8 (amended): with a page size that covers both objects,
deleting `/a` over `{a/1, a/2}` empties the prefix, and a second delete is
a no-op. -/
theorem s3_delete_page_characterization_witness :
    s3delete 2 "" (s3delete 2 "" bucketPageDemo "/a") "/a" =
      s3delete 2 "" bucketPageDemo "/a" :=
  (s3_delete_page_characterization 2 "" bucketPageDemo "/a" (by decide)).2.2

/-- All directory entries precede all file entries. -/
def dirsBeforeFiles (l : List StorageEntry) : Prop :=
  l.Pairwise (fun a b => ¬(a.type = .file ∧ b.type = .directory))

/-- The entries appear in non-decreasing case-insensitive name order. -/
def ciSorted (l : List StorageEntry) : Prop :=
  l.Pairwise (fun a b =>
    cmpChars (a.name.data.map Char.toLower) (b.name.data.map Char.toLower) ≠ .gt)

theorem entryLe_dirs_first {a b : StorageEntry} (h : entryLe a b) :
    ¬(a.type = .file ∧ b.type = .directory) := by
  rintro ⟨ha, hb⟩
  unfold entryLe entryCmp at h
  rw [if_pos (by rw [ha, hb]; simp), if_neg (by rw [ha]; simp)] at h
  exact h rfl

theorem entryLe_ci {a b : StorageEntry} (ht : a.type = b.type)
    (h : entryLe a b) :
    cmpChars (a.name.data.map Char.toLower) (b.name.data.map Char.toLower) ≠ .gt := by
  unfold entryLe entryCmp at h
  rw [if_neg (by simp [ht])] at h
  intro hgt
  apply h
  unfold localeCmp
  rw [hgt]

theorem sorted_listing_props {l : List StorageEntry}
    (h : l.Pairwise entryLe) :
    dirsBeforeFiles l
    ∧ ciSorted (l.filter (fun e => e.type = EntryType.directory))
    ∧ ciSorted (l.filter (fun e => e.type = EntryType.file)) := by
  refine ⟨h.imp entryLe_dirs_first, ?_, ?_⟩
  · apply List.Pairwise.imp_of_mem ?_ (h.filter _)
    intro a b ha hb hr
    have hta := List.of_mem_filter ha
    have htb := List.of_mem_filter hb
    exact entryLe_ci (by simp only [decide_eq_true_eq] at hta htb; rw [hta, htb]) hr
  · apply List.Pairwise.imp_of_mem ?_ (h.filter _)
    intro a b ha hb hr
    have hta := List.of_mem_filter ha
    have htb := List.of_mem_filter hb
    exact entryLe_ci (by simp only [decide_eq_true_eq] at hta htb; rw [hta, htb]) hr

/-- C7: every listing returned by `list` on both adapters — for any
readdir product on the local adapter, for any bucket, profile prefix,
path and pagination options on the S3 adapter — places every directory
entry before every file entry, and within each of the two groups the
entries are in case-insensitive alphabetical name order. -/
theorem listings_dirs_first_ci_sorted :
    (∀ (raw : List StorageEntry) (limit : Option Nat) (offset : Nat),
      dirsBeforeFiles (localList raw limit offset).1
      ∧ ciSorted ((localList raw limit offset).1.filter
          (fun e => e.type = EntryType.directory))
      ∧ ciSorted ((localList raw limit offset).1.filter
          (fun e => e.type = EntryType.file)))
    ∧ (∀ (pfx : String) (bucket : List S3Object) (now : Nat) (path : String)
        (limit : Option Nat) (offset : Nat),
      dirsBeforeFiles (s3list pfx bucket now path limit offset).1
      ∧ ciSorted ((s3list pfx bucket now path limit offset).1.filter
          (fun e => e.type = EntryType.directory))
      ∧ ciSorted ((s3list pfx bucket now path limit offset).1.filter
          (fun e => e.type = EntryType.file))) := by
  constructor
  · intro raw limit offset
    have hson : (sortEntries raw).Pairwise entryLe := sortEntries_sorted raw
    apply sorted_listing_props
    rcases limit with _ | n
    · exact hson
    · cases n with
      | zero => exact hson
      | succ m =>
        exact hson.sublist
          ((List.take_sublist _ _).trans (List.drop_sublist _ _))
  · intro pfx bucket now path limit offset
    apply sorted_listing_props
    simp only [s3list]
    split
    · exact (sortEntries_sorted _).sublist (List.drop_sublist _ _)
    · exact sortEntries_sorted _

/-! ## Archive size probe (`getArchiveTotalBytes` / `sumPathBytes` in
`server.ts`)

The host subtree under each requested path is a tree of files (with
sizes), directories and symbolic links; `lstat`/`readdir` are total on it
(the code's continue-on-error branches are for races, outside the model).
The probe walks with an explicit stack and stops as soon as the running
total reaches the limit. -/

inductive FsNode where
  | file (size : Nat)
  | dir (children : List FsNode)
  | symlink
deriving Repr

def FsNode.isSymlink : FsNode → Bool
  | .symlink => true
  | _ => false

mutual

/-- The recursive byte total of a node, symbolic links excluded — the
quantity `sumPathBytes` would report with no limit. -/
def trueBytes : FsNode → Nat
  | .file n => n
  | .symlink => 0
  | .dir cs => nodesBytes cs

/-- Sum of `trueBytes` over a list of nodes. -/
def nodesBytes : List FsNode → Nat
  | [] => 0
  | n :: rest => trueBytes n + nodesBytes rest

end

mutual

/-- Structural size measure used for the probe loop's termination. -/
def nodeSize : FsNode → Nat
  | .file _ => 1
  | .symlink => 1
  | .dir cs => 1 + nodesSize cs

/-- Sum of `nodeSize` over a list of nodes. -/
def nodesSize : List FsNode → Nat
  | [] => 0
  | n :: rest => nodeSize n + nodesSize rest

end

/-- Embedding of the `while` loop of `sumPathBytes`: pop a node; skip
symlinks (`continue` bypasses the limit check); add a file's size; push a
directory's non-symlink children (the last pushed is popped first);
`break` as soon as `total >= limit`. -/
def sumLoop (limit : Nat) : List FsNode → Nat → Nat
  | [], total => total
  | .symlink :: rest, total => sumLoop limit rest total
  | .file sz :: rest, total =>
    if limit ≤ total + sz then total + sz else sumLoop limit rest (total + sz)
  | .dir cs :: rest, total =>
    if limit ≤ total then total
    else sumLoop limit ((cs.filter (fun c => !c.isSymlink)).reverse ++ rest) total
termination_by stack _ => nodesSize stack
decreasing_by
  · simp only [nodesSize, nodeSize]
    omega
  · simp only [nodesSize, nodeSize]
    omega
  · have happ : ∀ a b : List FsNode, nodesSize (a ++ b) = nodesSize a + nodesSize b := by
      intro a b
      induction a with
      | nil => simp [nodesSize]
      | cons x xs ih =>
        simp only [List.cons_append, nodesSize, List.append_eq, ih]
        omega
    have hrev : ∀ a : List FsNode, nodesSize a.reverse = nodesSize a := by
      intro a
      induction a with
      | nil => rfl
      | cons x xs ih =>
        simp only [List.reverse_cons, happ, nodesSize, List.append_eq, ih]
        omega
    have hfil : ∀ a : List FsNode,
        nodesSize (a.filter (fun c => !c.isSymlink)) ≤ nodesSize a := by
      intro a
      induction a with
      | nil => simp
      | cons x xs ih =>
        rw [List.filter_cons]
        split
        · simp only [nodesSize]
          omega
        · simp only [nodesSize]
          have : 0 < nodeSize x := by
            cases x <;> simp [nodeSize]
          omega
    simp only [nodesSize, nodeSize, happ, hrev]
    have := hfil cs
    omega

/-- Embedding of `sumPathBytes`: zero for a non-positive limit, otherwise
the stack walk from the root. -/
def sumPathBytes (root : FsNode) (limit : Nat) : Nat :=
  if limit = 0 then 0 else sumLoop limit [root] 0

/-- Embedding of the path loop of `getArchiveTotalBytes`: accumulate each
path's probe (with the remaining budget), breaking once the total reaches
the limit. -/
def gatGo (limit : Nat) : List FsNode → Nat → Nat
  | [], total => total
  | p :: ps, total =>
    if limit ≤ total then total
    else gatGo limit ps (total + sumPathBytes p (limit - total))

/-- Embedding of `getArchiveTotalBytes`. -/
def getArchiveTotalBytes (paths : List FsNode) (limit : Nat) : Nat :=
  if limit = 0 then 0 else gatGo limit paths 0

inductive ArchiveFormat where
  | zip
  | targz
deriving DecidableEq, Repr

/-- Embedding of the archive route's pre-flight: the probe runs only for
zip. -/
def archiveTotalBytes (format : ArchiveFormat) (paths : List FsNode)
    (limit : Nat) : Nat :=
  match format with
  | .zip => getArchiveTotalBytes paths limit
  | .targz => 0

/-- Embedding of `useStore = format === "zip" && totalBytes >=
ARCHIVE_LARGE_BYTES`. -/
def useStore (format : ArchiveFormat) (paths : List FsNode) (limit : Nat) :
    Bool :=
  format == .zip && limit ≤ archiveTotalBytes format paths limit

/-- Embedding of `compression`: for zip, store when the probe hit the
limit, otherwise normal deflate; for tar.gz always gzip. -/
def compression (format : ArchiveFormat) (paths : List FsNode)
    (limit : Nat) : String :=
  match format with
  | .zip => if useStore .zip paths limit then "store" else "normal"
  | .targz => "gzip"

theorem nodesBytes_append (a b : List FsNode) :
    nodesBytes (a ++ b) = nodesBytes a + nodesBytes b := by
  induction a with
  | nil => simp [nodesBytes]
  | cons x xs ih =>
    simp only [List.cons_append, nodesBytes, List.append_eq, ih]
    omega

theorem nodesBytes_reverse (a : List FsNode) :
    nodesBytes a.reverse = nodesBytes a := by
  induction a with
  | nil => rfl
  | cons x xs ih =>
    simp only [List.reverse_cons, nodesBytes_append, nodesBytes, List.append_eq, ih]
    omega

theorem nodesBytes_filter_symlink (a : List FsNode) :
    nodesBytes (a.filter (fun c => !c.isSymlink)) = nodesBytes a := by
  induction a with
  | nil => rfl
  | cons x xs ih =>
    rw [List.filter_cons]
    split
    · simp only [nodesBytes, ih]
    · have hx : x = .symlink := by
        cases x <;> simp_all [FsNode.isSymlink]
      simp only [nodesBytes, ih, hx, trueBytes]
      omega

theorem sumLoop_char (limit : Nat) (stack : List FsNode) (total : Nat)
    (htot : total < limit) :
    sumLoop limit stack total ≤ total + nodesBytes stack
    ∧ (limit ≤ sumLoop limit stack total ↔ limit ≤ total + nodesBytes stack)
    ∧ (total + nodesBytes stack < limit →
      sumLoop limit stack total = total + nodesBytes stack) := by
  match stack with
  | [] =>
    simp only [sumLoop, nodesBytes]
    omega
  | .symlink :: rest =>
    have ih := sumLoop_char limit rest total htot
    simp only [sumLoop, nodesBytes, trueBytes]
    omega
  | .file sz :: rest =>
    simp only [sumLoop, nodesBytes, trueBytes]
    by_cases hl : limit ≤ total + sz
    · rw [if_pos hl]
      refine ⟨by omega, ⟨fun _ => by omega, fun _ => hl⟩, fun h => by omega⟩
    · rw [if_neg hl]
      have ih := sumLoop_char limit rest (total + sz) (by omega)
      omega
  | .dir cs :: rest =>
    simp only [sumLoop, nodesBytes, trueBytes]
    rw [if_neg (by omega)]
    have ih := sumLoop_char limit ((cs.filter (fun c => !c.isSymlink)).reverse ++ rest)
      total htot
    rw [nodesBytes_append, nodesBytes_reverse, nodesBytes_filter_symlink] at ih
    omega
termination_by nodesSize stack
decreasing_by
  · simp only [nodesSize, nodeSize]
    omega
  · simp only [nodesSize, nodeSize]
    omega
  · simp only [nodesSize, nodeSize, nodesBytes_append]
    have happ : ∀ a b : List FsNode, nodesSize (a ++ b) = nodesSize a + nodesSize b := by
      intro a b
      induction a with
      | nil => simp [nodesSize]
      | cons x xs ih =>
        simp only [List.cons_append, nodesSize, List.append_eq, ih]
        omega
    have hrev : ∀ a : List FsNode, nodesSize a.reverse = nodesSize a := by
      intro a
      induction a with
      | nil => rfl
      | cons x xs ih =>
        simp only [List.reverse_cons, happ, nodesSize, List.append_eq, ih]
        omega
    have hfil : ∀ a : List FsNode,
        nodesSize (a.filter (fun c => !c.isSymlink)) ≤ nodesSize a := by
      intro a
      induction a with
      | nil => simp
      | cons x xs ih =>
        rw [List.filter_cons]
        split
        · simp only [nodesSize]
          omega
        · simp only [nodesSize]
          have : 0 < nodeSize x := by
            cases x <;> simp [nodeSize]
          omega
    simp only [happ, hrev]
    have := hfil cs
    omega

theorem sumPathBytes_char (root : FsNode) (limit : Nat) (h : 0 < limit) :
    sumPathBytes root limit ≤ trueBytes root
    ∧ (limit ≤ sumPathBytes root limit ↔ limit ≤ trueBytes root)
    ∧ (trueBytes root < limit → sumPathBytes root limit = trueBytes root) := by
  unfold sumPathBytes
  rw [if_neg (by omega)]
  have := sumLoop_char limit [root] 0 h
  simp only [nodesBytes] at this
  omega

theorem gatGo_char (limit : Nat) (paths : List FsNode) (total : Nat)
    (htot : total < limit) :
    gatGo limit paths total ≤ total + nodesBytes paths
    ∧ (limit ≤ gatGo limit paths total ↔ limit ≤ total + nodesBytes paths) := by
  induction paths generalizing total with
  | nil =>
    simp only [gatGo, nodesBytes]
    omega
  | cons p ps ih =>
    simp only [gatGo, nodesBytes]
    rw [if_neg (by omega)]
    have hrem : 0 < limit - total := by omega
    obtain ⟨hple, hpiff, hpexact⟩ := sumPathBytes_char p (limit - total) hrem
    by_cases hcross : limit ≤ total + sumPathBytes p (limit - total)
    · have hstop : gatGo limit ps (total + sumPathBytes p (limit - total)) =
          total + sumPathBytes p (limit - total) := by
        cases ps with
        | nil => simp [gatGo]
        | cons q qs => simp [gatGo, if_pos hcross]
      rw [hstop]
      refine ⟨by omega, ?_⟩
      constructor
      · intro _
        omega
      · intro _
        exact hcross
    · have htb_lt : trueBytes p < limit - total := by
        by_cases hge : limit - total ≤ trueBytes p
        · have := hpiff.mpr hge
          omega
        · omega
      have heq := hpexact htb_lt
      obtain ⟨ihle, ihiff⟩ := ih (total + sumPathBytes p (limit - total)) (by omega)
      refine ⟨by omega, ?_⟩
      rw [ihiff]
      omega

/-- C6: for a zip archive request, store mode is chosen if and only if the
recursive byte total of the requested trees (symlinks excluded) is greater
than or equal to the archive threshold — equality included — even though
the probe short-circuits at the limit; and for tar.gz the compression is
always gzip.  `limit` is `ARCHIVE_LARGE_BYTES`, positive by construction
(a positive `ARCHIVE_LARGE_MB` override or the 100 MiB default). -/
theorem archive_store_mode_iff (paths : List FsNode) (limit : Nat)
    (h : 0 < limit) :
    (useStore .zip paths limit = true ↔ limit ≤ nodesBytes paths)
    ∧ compression .targz paths limit = "gzip" := by
  constructor
  · unfold useStore archiveTotalBytes getArchiveTotalBytes
    rw [if_neg (by omega)]
    obtain ⟨-, hiff⟩ := gatGo_char limit paths 0 h
    simp only [Bool.and_eq_true, beq_self_eq_true, true_and, decide_eq_true_eq]
    rw [hiff]
    omega
  · rfl

/-- Witness for C6: a forest whose byte total is exactly the limit (a
2-byte file plus a directory holding a 2-byte file and a symlink, limit 4)
selects store mode — the boundary case. -/
theorem archive_store_mode_iff_witness :
    useStore .zip [.file 2, .dir [.file 2, .symlink]] 4 = true :=
  (archive_store_mode_iff [.file 2, .dir [.file 2, .symlink]] 4
    (by decide)).1.mpr (by decide)

/-! ## Trash and restore (local adapter routes in `server.ts`)

The host filesystem is a map from absolute host paths to entries: `files`
pairs a path with its content, `dirs` lists directory paths.  The model is
symlink-free, so `fs.realpath` is the identity on existing paths and fails
otherwise.  A rename moves a path and its whole subtree.  Sidecar files
`<id>.json` under `<rootReal>/.trash/.meta/` hold JSON-serialized
`TrashRecord`s which round-trip faithfully, so the meta directory is
modelled as a map from `id` to the record. -/

structure TrashRecord where
  id : String
  name : String
  originalPath : String
  deletedAt : Nat
  type : String
  size : Nat
  trashName : String
deriving DecidableEq, Repr

structure HostFS where
  files : List (String × String)
  dirs : List String
deriving DecidableEq, Repr

/-- Whether a host path exists (`fs.stat` / `fs.access` succeeding). -/
def fexists (fs : HostFS) (p : String) : Bool :=
  fs.files.any (fun f => f.1 = p) || fs.dirs.contains p

/-- `stats.isDirectory()`. -/
def isDirFS (fs : HostFS) (p : String) : Bool := fs.dirs.contains p

/-- The content of the file at `p`, when one exists. -/
def fileContent (fs : HostFS) (p : String) : Option String :=
  (fs.files.find? (fun f => f.1 = p)).map Prod.snd

/-- The `fs.realpath` oracle of the symlink-free model: an existing path
resolves to itself, a missing one throws (`none`). -/
def realpathFS (fs : HostFS) (p : String) : Option String :=
  if fexists fs p then some p else none

/-- Key rewrite performed by `fs.rename src dst` on one host path: the
path itself moves to `dst`, everything nested under it moves along. -/
def rewriteKey (src dst k : String) : String :=
  if k = src then dst
  else if (src ++ "/").data.isPrefixOf k.data then
    String.mk (dst.data ++ k.data.drop src.data.length)
  else k

/-- Embedding of `fs.rename`: move the node and its subtree. -/
def renameFS (fs : HostFS) (src dst : String) : HostFS :=
  ⟨fs.files.map (fun f => (rewriteKey src dst f.1, f.2)),
   fs.dirs.map (rewriteKey src dst)⟩

/-- Embedding of `getTrashPaths` plus `ensureTrashDirs`
(`fs.mkdir(metaDir, {recursive: true})`): create `<rootReal>/.trash` and
`<rootReal>/.trash/.meta` when absent. -/
def ensureTrashDirs (fs : HostFS) (rootReal : String) : HostFS :=
  let trashDir := rootReal ++ "/.trash"
  let metaDir := trashDir ++ "/.meta"
  let d1 := if fs.dirs.contains trashDir then fs.dirs else fs.dirs ++ [trashDir]
  let d2 := if d1.contains metaDir then d1 else d1 ++ [metaDir]
  ⟨fs.files, d2⟩

/-- JavaScript whitespace trimmed by `String.prototype.trim` (the common
ASCII subset). -/
def isJsWS (c : Char) : Bool :=
  c = ' ' ∨ c = '\t' ∨ c = '\n' ∨ c = '\r'

/-- Embedding of `sanitizeName`: trim, strip NUL bytes, reject empty
names, separators and the dot names. -/
def sanitizeName (value : String) : Option String :=
  let trimmed := String.mk
    ((((value.data.dropWhile isJsWS).reverse.dropWhile isJsWS).reverse).filter
      (fun c => c ≠ Char.ofNat 0))
  if trimmed = "" then none
  else if trimmed.data.contains '/' || trimmed.data.contains '\\' then none
  else if trimmed = "." ∨ trimmed = ".." then none
  else some trimmed

/-- Embedding of `path.basename` for host paths without a trailing
separator: the segment after the last `/`. -/
def basenameStr (p : String) : String :=
  String.mk ((p.data.reverse.takeWhile (fun c => c ≠ '/')).reverse)

/-- Embedding of `path.posix.dirname` for absolute virtual paths without a
trailing separator. -/
def posixDirname (p : String) : String :=
  let pre := (p.data.reverse.dropWhile (fun c => c ≠ '/')).reverse
  if pre = [] then "."
  else if pre = ['/'] then "/"
  else String.mk pre.dropLast

/-- Embedding of `path.posix.basename` for such paths. -/
def posixBasename (p : String) : String := basenameStr p

/-- Sidecar write (`fs.writeFile(metaDir/<id>.json, JSON.stringify(record))`). -/
def setMeta (meta : List (String × TrashRecord)) (id : String)
    (record : TrashRecord) : List (String × TrashRecord) :=
  (id, record) :: meta.filter (fun m => m.1 ≠ id)

/-- Sidecar read (`readTrashRecord`: read, parse, check the required
fields). -/
def getMeta (meta : List (String × TrashRecord)) (id : String) :
    Option TrashRecord :=
  (meta.find? (fun m => m.1 = id)).map Prod.snd

/-- Sidecar unlink (`fs.unlink(metaDir/<id>.json)`). -/
def delMeta (meta : List (String × TrashRecord)) (id : String) :
    List (String × TrashRecord) :=
  meta.filter (fun m => m.1 ≠ id)

/-- Embedding of the `POST /api/trash` handler (for a writer session):
resolve the path, refuse the root, ensure the trash directories, rename
the host node to `<rootReal>/.trash/<deletedAt>-<name>-<id>` and write the
sidecar. -/
def trashOp (fs : HostFS) (meta : List (String × TrashRecord))
    (rootReal p : String) (now : Nat) (id : String) :
    Except String (HostFS × List (String × TrashRecord) × TrashRecord) :=
  match resolveSafePath (realpathFS fs) (some p) rootReal with
  | none => .error "Path not found."
  | some (normalized, fullPath) =>
    if normalized = "/" then .error "Cannot delete the root."
    else
      let isDir := isDirFS fs fullPath
      let trashDir := rootReal ++ "/.trash"
      let fs1 := ensureTrashDirs fs rootReal
      let fileName := (sanitizeName (basenameStr fullPath)).getD "item"
      let trashName := Nat.repr now ++ "-" ++ fileName ++ "-" ++ id
      let trashPath := trashDir ++ "/" ++ trashName
      let fs2 := renameFS fs1 fullPath trashPath
      let record : TrashRecord :=
        ⟨id, fileName, normalized, now,
          if isDir then "dir" else "file",
          if isDir then 0 else ((fileContent fs fullPath).getD "").data.length,
          trashName⟩
      .ok (fs2, setMeta meta id record, record)

/-- Embedding of the `POST /api/trash/restore` handler (for a writer
session): read the sidecar, re-normalize the recorded original path,
refuse the root and the trash subtree, re-resolve the parent (409 when it
no longer exists), refuse an occupied destination (409), move the physical
trash item back and unlink the sidecar. -/
def restoreOp (fs : HostFS) (meta : List (String × TrashRecord))
    (rootReal id : String) :
    Except String (HostFS × List (String × TrashRecord)) :=
  match getMeta meta id with
  | none => .error "Trash record not found."
  | some record =>
    let normalized := normalizeRequestPath (some record.originalPath)
    if normalized = "/" ∨ ("/.trash").data.isPrefixOf normalized.data then
      .error "Invalid restore path."
    else
      let parentNormalized := posixDirname normalized
      match resolveSafePath (realpathFS fs) (some parentNormalized) rootReal with
      | none => .error "Restore location no longer exists."
      | some (_, parentFull) =>
        let destPath := parentFull ++ "/" ++ posixBasename normalized
        if fexists fs destPath then .error "Restore target already exists."
        else
          let trashPath := rootReal ++ "/.trash" ++ "/" ++ record.trashName
          if fexists fs trashPath then
            .ok (renameFS fs trashPath destPath, delMeta meta record.id)
          else .error "Trash item not found."

/-- The host entries physically inside `<rootReal>/.trash/`, the `.meta`
subtree aside — what "the trash directory is empty" quantifies over. -/
def trashItems (fs : HostFS) (rootReal : String) : List String :=
  let trashDirS := rootReal ++ "/.trash/"
  let metaDir := rootReal ++ "/.trash/.meta"
  (fs.files.map Prod.fst ++ fs.dirs).filter (fun k =>
    trashDirS.data.isPrefixOf k.data && !(k == metaDir)
    && !((metaDir ++ "/").data.isPrefixOf k.data))

theorem isP_iff {a b : List Char} : a.isPrefixOf b = true ↔ a <+: b := by
  simp [List.isPrefixOf_iff_prefix]

theorem isP_refl (a : List Char) : a.isPrefixOf a = true :=
  isP_iff.mpr (List.prefix_refl a)

theorem isP_trans {a b c : List Char} (h1 : a.isPrefixOf b = true)
    (h2 : b.isPrefixOf c = true) : a.isPrefixOf c = true :=
  isP_iff.mpr ((isP_iff.mp h1).trans (isP_iff.mp h2))

theorem isP_append (a t : List Char) : a.isPrefixOf (a ++ t) = true :=
  isP_iff.mpr (List.prefix_append a t)

theorem isP_false_of_longer {a b : List Char} (h : b.length < a.length) :
    a.isPrefixOf b = false := by
  rw [Bool.eq_false_iff]
  intro hp
  have := (isP_iff.mp hp).length_le
  omega

theorem string_ext {s t : String} (h : s.data = t.data) : s = t :=
  congrArg String.mk h

theorem data_append3 (a b c : String) :
    (a ++ b ++ c).data = a.data ++ b.data ++ c.data := by
  simp [String.data_append]

theorem under_decomp {src k : String}
    (h : (src ++ "/").data.isPrefixOf k.data = true) :
    ∃ t, k.data = src.data ++ '/' :: t
      ∧ k.data.drop src.data.length = '/' :: t := by
  obtain ⟨t, ht⟩ := isP_iff.mp h
  refine ⟨t, ?_, ?_⟩
  · rw [← ht]
    simp [String.data_append]
  · rw [← ht]
    simp only [String.data_append]
    rw [List.append_assoc]
    simp only [List.drop_left]
    rfl

theorem rewriteKey_src (src dst : String) : rewriteKey src dst src = dst := by
  simp [rewriteKey]

theorem rewriteKey_unrelated {src dst k : String} (h1 : k ≠ src)
    (h2 : (src ++ "/").data.isPrefixOf k.data = false) :
    rewriteKey src dst k = k := by
  have hcond : ¬ ((src ++ "/").data.isPrefixOf k.data = true) := by
    rw [h2]
    simp
  unfold rewriteKey
  rw [if_neg h1, if_neg hcond]

theorem rewriteKey_cases (src dst k : String) :
    (k = src ∧ rewriteKey src dst k = dst)
    ∨ (k ≠ src ∧ (src ++ "/").data.isPrefixOf k.data = true
        ∧ ∃ t, k.data = src.data ++ '/' :: t
          ∧ (rewriteKey src dst k).data = dst.data ++ '/' :: t)
    ∨ (k ≠ src ∧ (src ++ "/").data.isPrefixOf k.data = false
        ∧ rewriteKey src dst k = k) := by
  by_cases h1 : k = src
  · left
    exact ⟨h1, by simp [rewriteKey, h1]⟩
  · by_cases h2 : (src ++ "/").data.isPrefixOf k.data = true
    · right
      left
      obtain ⟨t, hk, hdrop⟩ := under_decomp h2
      refine ⟨h1, h2, t, hk, ?_⟩
      simp only [rewriteKey, if_neg h1, if_pos h2]
      rw [hdrop]
    · right
      right
      have hf : (src ++ "/").data.isPrefixOf k.data = false :=
        Bool.eq_false_iff.mpr h2
      exact ⟨h1, hf, rewriteKey_unrelated h1 hf⟩

theorem rewriteKey_roundtrip {src dst k : String} (hkd : k ≠ dst)
    (hku : (dst ++ "/").data.isPrefixOf k.data = false) :
    rewriteKey dst src (rewriteKey src dst k) = k := by
  rcases rewriteKey_cases src dst k with ⟨hks, heq⟩ | ⟨-, -, t, hk, hdata⟩ | ⟨-, -, heq⟩
  · rw [heq, rewriteKey_src, hks]
  · have hne : rewriteKey src dst k ≠ dst := by
      intro hc
      have := congrArg (fun s => s.data.length) hc
      simp only [hdata] at this
      simp at this
    have hund : ((dst ++ "/").data.isPrefixOf (rewriteKey src dst k).data) = true := by
      rw [hdata]
      have he1 : (dst ++ "/").data = dst.data ++ ['/'] := by
        simp [String.data_append]
      have he2 : dst.data ++ '/' :: t = (dst.data ++ ['/']) ++ t := by
        simp
      rw [he1, he2]
      exact isP_append _ _
    set k' := rewriteKey src dst k with hk'
    unfold rewriteKey
    rw [if_neg hne, if_pos hund]
    apply string_ext
    show src.data ++ k'.data.drop dst.data.length = k.data
    rw [hdata, List.drop_left dst.data ('/' :: t), hk]
  · rw [heq, rewriteKey_unrelated hkd hku]

theorem rewritten_ne {base src dst k : String}
    (hTPd : base.data.isPrefixOf dst.data = true)
    (hnTPs : base.data.isPrefixOf src.data = false) :
    rewriteKey src dst k ≠ src := by
  rcases rewriteKey_cases src dst k with ⟨-, heq⟩ | ⟨-, -, t, -, hdata⟩ | ⟨hne, -, heq⟩
  · rw [heq]
    intro hc
    rw [hc] at hTPd
    rw [hTPd] at hnTPs
    exact Bool.noConfusion hnTPs
  · intro hc
    have hsrc : base.data.isPrefixOf src.data = true := by
      have h1 : base.data.isPrefixOf (dst.data ++ '/' :: t) = true := by
        have he2 : dst.data ++ '/' :: t = (dst.data ++ ['/']) ++ t := by
          simp
        rw [he2]
        exact isP_trans hTPd (isP_trans (isP_append dst.data ['/'])
          (isP_append (dst.data ++ ['/']) t))
      rw [← hdata, hc] at h1
      exact h1
    rw [hsrc] at hnTPs
    exact Bool.noConfusion hnTPs
  · rw [heq]
    exact hne

theorem isP_append2 (a b c : List Char) : a.isPrefixOf (a ++ b ++ c) = true := by
  rw [List.append_assoc]
  exact isP_append a (b ++ c)

theorem mem_keys_of_fexists {fs : HostFS} {p : String}
    (h : fexists fs p = true) : p ∈ fs.files.map Prod.fst ++ fs.dirs := by
  unfold fexists at h
  rcases Bool.or_eq_true _ _ |>.mp h with hf | hd
  · rcases List.any_eq_true.mp hf with ⟨f, hfm, hfe⟩
    apply List.mem_append.mpr
    left
    exact List.mem_map.mpr ⟨f, hfm, by simpa using hfe⟩
  · apply List.mem_append.mpr
    right
    simpa using hd

theorem joinRoot_eq {rootReal p : String} (h2 : p ≠ "/")
    (h5 : ¬ p.data.getLast? = some '/') :
    joinRoot rootReal p = rootReal ++ p := by
  have hcond : ¬ (p ≠ "/" ∧ p.data.getLast? = some '/') := fun hc => h5 hc.2
  simp only [joinRoot, if_neg hcond]
  rw [if_neg h2]

theorem within_root_append {rootReal p : String} (h4 : p.data.head? = some '/')
    (h6 : ¬ rootReal.data.getLast? = some '/') :
    isWithinRoot (rootReal ++ p) rootReal = true := by
  obtain ⟨rest, hrest⟩ : ∃ rest, p.data = '/' :: rest := by
    cases hp : p.data with
    | nil =>
      rw [hp] at h4
      simp at h4
    | cons c cs =>
      rw [hp] at h4
      simp only [List.head?_cons, Option.some.injEq] at h4
      exact ⟨cs, by rw [h4]⟩
  have hne : rootReal ++ p ≠ rootReal := by
    intro hc
    have hlen := congrArg (fun s => s.data.length) hc
    simp only [String.data_append, List.length_append] at hlen
    have hp0 : p.data.length = 0 := by omega
    rw [hrest] at hp0
    simp at hp0
  unfold isWithinRoot
  rw [if_neg hne]
  have hews : endsWithSep rootReal = false := by
    unfold endsWithSep
    simpa using h6
  have hsep : (if endsWithSep rootReal = true then rootReal else rootReal ++ sep) =
      rootReal ++ sep := by
    rw [hews]
    simp
  simp only [hsep]
  apply isP_iff.mpr
  rw [String.data_append, String.data_append, hrest]
  rw [List.prefix_append_right_inj]
  exact ⟨rest, rfl⟩

theorem resolveSafePath_concrete {fs : HostFS} {rootReal p : String}
    (h1 : normalizeRequestPath (some p) = p)
    (h3 : ("/.trash" : String).data.isPrefixOf p.data = false)
    (h2 : p ≠ "/") (h4 : p.data.head? = some '/')
    (h5 : ¬ p.data.getLast? = some '/')
    (h6 : ¬ rootReal.data.getLast? = some '/')
    (h14 : fexists fs (rootReal ++ p) = true) :
    resolveSafePath (realpathFS fs) (some p) rootReal = some (p, rootReal ++ p) := by
  have hnt : ¬ (p = "/.trash" ∨ ("/.trash/").data.isPrefixOf p.data = true) := by
    rintro (hc | hc)
    · rw [hc] at h3
      rw [isP_refl] at h3
      exact Bool.noConfusion h3
    · have hpre : ("/.trash").data.isPrefixOf ("/.trash/").data = true := by decide
      have := isP_trans hpre hc
      rw [this] at h3
      exact Bool.noConfusion h3
  simp only [resolveSafePath, h1]
  rw [if_neg hnt, joinRoot_eq h2 h5]
  unfold realpathFS
  rw [if_pos h14]
  simp only []
  rw [if_pos (within_root_append h4 h6)]

theorem resolveSafePath_parent {fs : HostFS} {rootReal parentNorm : String}
    (h10 : normalizeRequestPath (some parentNorm) = parentNorm)
    (h11 : parentNorm ≠ "/.trash")
    (h12 : ("/.trash/" : String).data.isPrefixOf parentNorm.data = false)
    (h13 : parentNorm = "/" ∨
      (parentNorm.data.head? = some '/' ∧ ¬ parentNorm.data.getLast? = some '/'))
    (h6 : ¬ rootReal.data.getLast? = some '/')
    (hex : fexists fs
      (if parentNorm = "/" then rootReal else rootReal ++ parentNorm) = true) :
    resolveSafePath (realpathFS fs) (some parentNorm) rootReal =
      some (parentNorm,
        if parentNorm = "/" then rootReal else rootReal ++ parentNorm) := by
  have hnt : ¬ (parentNorm = "/.trash"
      ∨ ("/.trash/").data.isPrefixOf parentNorm.data = true) := by
    rintro (hc | hc)
    · exact h11 hc
    · rw [hc] at h12
      exact Bool.noConfusion h12
  have hslash : ("/" : String).data.getLast? = some '/' := by decide
  have hjoin : joinRoot rootReal parentNorm =
      (if parentNorm = "/" then rootReal else rootReal ++ parentNorm) := by
    rcases h13 with hroot | ⟨hh, hl⟩
    · subst hroot
      simp [joinRoot]
    · have hne : parentNorm ≠ "/" := by
        intro hc
        rw [hc] at hl
        exact hl hslash
      rw [if_neg hne]
      exact joinRoot_eq hne hl
  simp only [resolveSafePath, h10]
  rw [if_neg hnt, hjoin]
  unfold realpathFS
  rw [if_pos hex]
  simp only []
  have hwithin : isWithinRoot
      (if parentNorm = "/" then rootReal else rootReal ++ parentNorm)
      rootReal = true := by
    rcases h13 with hroot | ⟨hh, hl⟩
    · rw [if_pos hroot]
      unfold isWithinRoot
      rw [if_pos rfl]
    · have hne : parentNorm ≠ "/" := by
        intro hc
        rw [hc] at hl
        exact hl hslash
      rw [if_neg hne]
      exact within_root_append hh h6
  rw [if_pos hwithin]

theorem trashOp_eval {fs : HostFS} {meta : List (String × TrashRecord)}
    {rootReal p leaf : String} {now : Nat} {id : String}
    (hres : resolveSafePath (realpathFS fs) (some p) rootReal =
      some (p, rootReal ++ p))
    (h2 : p ≠ "/")
    (h18 : sanitizeName leaf = some leaf)
    (h19 : basenameStr (rootReal ++ p) = leaf) :
    trashOp fs meta rootReal p now id = .ok
      (renameFS (ensureTrashDirs fs rootReal) (rootReal ++ p)
        (rootReal ++ "/.trash" ++ "/" ++ (Nat.repr now ++ "-" ++ leaf ++ "-" ++ id)),
       setMeta meta id ⟨id, leaf, p, now,
         if isDirFS fs (rootReal ++ p) then "dir" else "file",
         if isDirFS fs (rootReal ++ p) then 0
           else ((fileContent fs (rootReal ++ p)).getD "").data.length,
         Nat.repr now ++ "-" ++ leaf ++ "-" ++ id⟩,
       ⟨id, leaf, p, now,
         if isDirFS fs (rootReal ++ p) then "dir" else "file",
         if isDirFS fs (rootReal ++ p) then 0
           else ((fileContent fs (rootReal ++ p)).getD "").data.length,
         Nat.repr now ++ "-" ++ leaf ++ "-" ++ id⟩) := by
  unfold trashOp
  rw [hres]
  simp only []
  rw [if_neg h2, h19, h18]
  simp only [Option.getD_some]

theorem data_length_append (a b : String) :
    (a ++ b).data.length = a.data.length + b.data.length := by
  simp [String.data_append]

theorem ensureTrashDirs_eq {fs : HostFS} {rootReal : String}
    (h16 : ∀ k ∈ fs.files.map Prod.fst ++ fs.dirs,
      ((rootReal ++ "/.trash" : String)).data.isPrefixOf k.data = false) :
    ensureTrashDirs fs rootReal =
      ⟨fs.files, fs.dirs ++ [rootReal ++ "/.trash"]
        ++ [rootReal ++ "/.trash" ++ "/.meta"]⟩ := by
  have hTPmeta : (rootReal ++ "/.trash").data.isPrefixOf
      (rootReal ++ "/.trash" ++ "/.meta").data = true := by
    rw [String.data_append (rootReal ++ "/.trash") "/.meta"]
    exact isP_append _ _
  have hc1 : fs.dirs.contains (rootReal ++ "/.trash") = false := by
    rw [Bool.eq_false_iff]
    intro hc
    have hmem : (rootReal ++ "/.trash") ∈ fs.dirs := by simpa using hc
    have h := h16 _ (List.mem_append.mpr (Or.inr hmem))
    rw [isP_refl] at h
    exact Bool.noConfusion h
  have hmetane : (rootReal ++ "/.trash" ++ "/.meta") ≠ rootReal ++ "/.trash" := by
    intro hc
    have hlen := congrArg (fun s => s.data.length) hc
    have l2 : ("/.meta" : String).data.length = 6 := by decide
    simp only [data_length_append, l2] at hlen
    omega
  have hc2 : (fs.dirs ++ [rootReal ++ "/.trash"]).contains
      (rootReal ++ "/.trash" ++ "/.meta") = false := by
    rw [Bool.eq_false_iff]
    intro hc
    have hmem : (rootReal ++ "/.trash" ++ "/.meta") ∈
        fs.dirs ++ [rootReal ++ "/.trash"] := by simpa using hc
    rcases List.mem_append.mp hmem with hin | hin
    · have h := h16 _ (List.mem_append.mpr (Or.inr hin))
      rw [hTPmeta] at h
      exact Bool.noConfusion h
    · exact hmetane (by simpa using hin)
  have e1 : (if fs.dirs.contains (rootReal ++ "/.trash") = true then fs.dirs
      else fs.dirs ++ [rootReal ++ "/.trash"]) =
      fs.dirs ++ [rootReal ++ "/.trash"] := by
    rw [hc1]
    simp
  simp only [ensureTrashDirs, e1]
  rw [hc2]
  simp

theorem fexists_renamed_src_false {fs : HostFS} {base src dst : String}
    (hTPd : base.data.isPrefixOf dst.data = true)
    (hnTPs : base.data.isPrefixOf src.data = false) :
    fexists (renameFS fs src dst) src = false := by
  rw [Bool.eq_false_iff]
  intro hc
  unfold fexists renameFS at hc
  rcases Bool.or_eq_true _ _ |>.mp hc with hf | hd
  · rcases List.any_eq_true.mp hf with ⟨f', hf'm, hfe⟩
    rcases List.mem_map.mp hf'm with ⟨f, hfm, rfl⟩
    exact rewritten_ne hTPd hnTPs (by simpa using hfe)
  · have hmem : src ∈ fs.dirs.map (rewriteKey src dst) := by simpa using hd
    rcases List.mem_map.mp hmem with ⟨k, hk, hke⟩
    exact rewritten_ne hTPd hnTPs hke

theorem fexists_renamed_other {fs : HostFS} {src dst q : String}
    (hq : q ≠ src) (hqu : (src ++ "/").data.isPrefixOf q.data = false)
    (h : fexists fs q = true) : fexists (renameFS fs src dst) q = true := by
  unfold fexists at h ⊢
  unfold renameFS
  rcases Bool.or_eq_true _ _ |>.mp h with hf | hd
  · apply Bool.or_eq_true _ _ |>.mpr
    left
    rcases List.any_eq_true.mp hf with ⟨f, hfm, hfe⟩
    apply List.any_eq_true.mpr
    refine ⟨(rewriteKey src dst f.1, f.2), List.mem_map.mpr ⟨f, hfm, rfl⟩, ?_⟩
    have hfq : f.1 = q := by simpa using hfe
    rw [hfq] at *
    simp [rewriteKey_unrelated hq hqu]
  · apply Bool.or_eq_true _ _ |>.mpr
    right
    have hmem : q ∈ fs.dirs := by simpa using hd
    have : q ∈ fs.dirs.map (rewriteKey src dst) := by
      apply List.mem_map.mpr
      exact ⟨q, hmem, rewriteKey_unrelated hq hqu⟩
    simpa using this

theorem fexists_renamed_dst {fs : HostFS} {src dst : String}
    (h : fexists fs src = true) : fexists (renameFS fs src dst) dst = true := by
  unfold fexists at h ⊢
  unfold renameFS
  rcases Bool.or_eq_true _ _ |>.mp h with hf | hd
  · apply Bool.or_eq_true _ _ |>.mpr
    left
    rcases List.any_eq_true.mp hf with ⟨f, hfm, hfe⟩
    apply List.any_eq_true.mpr
    refine ⟨(rewriteKey src dst f.1, f.2), List.mem_map.mpr ⟨f, hfm, rfl⟩, ?_⟩
    have hfq : f.1 = src := by simpa using hfe
    rw [hfq]
    simp [rewriteKey_src]
  · apply Bool.or_eq_true _ _ |>.mpr
    right
    have hmem : src ∈ fs.dirs := by simpa using hd
    have : dst ∈ fs.dirs.map (rewriteKey src dst) := by
      apply List.mem_map.mpr
      exact ⟨src, hmem, rewriteKey_src src dst⟩
    simpa using this

theorem renameFS_roundtrip {fs : HostFS} {src dst : String}
    (hall : ∀ k ∈ fs.files.map Prod.fst ++ fs.dirs,
      k ≠ dst ∧ (dst ++ "/").data.isPrefixOf k.data = false) :
    renameFS (renameFS fs src dst) dst src = fs := by
  cases fs with
  | mk files dirs =>
    simp only [renameFS, List.map_map]
    congr 1
    · have hpt : ∀ f ∈ files,
          ((fun f : String × String => (rewriteKey dst src f.1, f.2)) ∘
            (fun f : String × String => (rewriteKey src dst f.1, f.2))) f = f := by
        intro f hf
        have hk := hall f.1 (List.mem_append.mpr (Or.inl
          (List.mem_map.mpr ⟨f, hf, rfl⟩)))
        simp only [Function.comp]
        rw [rewriteKey_roundtrip hk.1 hk.2]
      rw [List.map_congr_left hpt, List.map_id']
    · have hpt : ∀ k ∈ dirs,
          (rewriteKey dst src ∘ rewriteKey src dst) k = k := by
        intro k hk
        have h := hall k (List.mem_append.mpr (Or.inr hk))
        simp only [Function.comp]
        rw [rewriteKey_roundtrip h.1 h.2]
      rw [List.map_congr_left hpt, List.map_id']

theorem getMeta_setMeta (meta : List (String × TrashRecord)) (id : String)
    (record : TrashRecord) : getMeta (setMeta meta id record) id = some record := by
  simp [getMeta, setMeta, List.find?]

theorem delMeta_setMeta {meta : List (String × TrashRecord)} {id : String}
    (record : TrashRecord) (h17 : ∀ m ∈ meta, m.1 ≠ id) :
    delMeta (setMeta meta id record) id = meta := by
  unfold delMeta setMeta
  simp only [ne_eq, decide_not]
  have hself : meta.filter (fun m => !decide (m.1 = id)) = meta :=
    List.filter_eq_self.mpr (fun m hm => by simp [h17 m hm])
  rw [hself, List.filter_cons]
  simp [hself]

theorem trashItems_clean {fs : HostFS} {rootReal : String}
    (h16 : ∀ k ∈ fs.files.map Prod.fst ++ fs.dirs,
      ((rootReal ++ "/.trash" : String)).data.isPrefixOf k.data = false) :
    trashItems ⟨fs.files, fs.dirs ++ [rootReal ++ "/.trash"]
      ++ [rootReal ++ "/.trash" ++ "/.meta"]⟩ rootReal = [] := by
  have hdirS : (rootReal ++ "/.trash/" : String).data =
      (rootReal ++ "/.trash").data ++ ['/'] := by
    simp only [String.data_append, List.append_assoc]
    rfl
  have hmetaEq : (rootReal ++ "/.trash/.meta" : String) =
      rootReal ++ "/.trash" ++ "/.meta" := by
    apply string_ext
    simp only [String.data_append, List.append_assoc]
    rfl
  unfold trashItems
  apply List.filter_eq_nil_iff.mpr
  intro k hk
  intro hcond
  obtain ⟨⟨hA, hB⟩, hC⟩ : ((rootReal ++ "/.trash/").data.isPrefixOf k.data = true
      ∧ (!(k == rootReal ++ "/.trash/.meta")) = true)
      ∧ (!((rootReal ++ "/.trash/.meta" ++ "/").data.isPrefixOf k.data)) = true := by
    simpa [Bool.and_eq_true] using hcond
  simp only [List.map_id] at hk
  rcases List.mem_append.mp hk with hkf | hkd
  · have h := h16 k (List.mem_append.mpr (Or.inl hkf))
    have : (rootReal ++ "/.trash").data.isPrefixOf k.data = true := by
      apply isP_trans _ hA
      rw [hdirS]
      exact isP_append _ _
    rw [this] at h
    exact Bool.noConfusion h
  · rcases List.mem_append.mp hkd with hkd2 | hkm
    · rcases List.mem_append.mp hkd2 with hko | hkt
      · have h := h16 k (List.mem_append.mpr (Or.inr hko))
        have : (rootReal ++ "/.trash").data.isPrefixOf k.data = true := by
          apply isP_trans _ hA
          rw [hdirS]
          exact isP_append _ _
        rw [this] at h
        exact Bool.noConfusion h
      · have hkt' : k = rootReal ++ "/.trash" := by simpa using hkt
        have hlen : k.data.length < (rootReal ++ "/.trash/").data.length := by
          rw [hkt', hdirS]
          simp
        have := isP_false_of_longer hlen
        rw [this] at hA
        exact Bool.noConfusion hA
    · have hkm' : k = rootReal ++ "/.trash" ++ "/.meta" := by simpa using hkm
      have : (k == rootReal ++ "/.trash/.meta") = true := by
        rw [hkm', hmetaEq]
        simp
      rw [this] at hB
      exact Bool.noConfusion hB

theorem resolveSafePath_parent_missing {fs : HostFS} {rootReal parentNorm : String}
    (h10 : normalizeRequestPath (some parentNorm) = parentNorm)
    (h11 : parentNorm ≠ "/.trash")
    (h12 : ("/.trash/" : String).data.isPrefixOf parentNorm.data = false)
    (h13 : parentNorm = "/" ∨
      (parentNorm.data.head? = some '/' ∧ ¬ parentNorm.data.getLast? = some '/'))
    (hex : fexists fs
      (if parentNorm = "/" then rootReal else rootReal ++ parentNorm) = false) :
    resolveSafePath (realpathFS fs) (some parentNorm) rootReal = none := by
  have hnt : ¬ (parentNorm = "/.trash"
      ∨ ("/.trash/").data.isPrefixOf parentNorm.data = true) := by
    rintro (hc | hc)
    · exact h11 hc
    · rw [hc] at h12
      exact Bool.noConfusion h12
  have hslash : ("/" : String).data.getLast? = some '/' := by decide
  have hjoin : joinRoot rootReal parentNorm =
      (if parentNorm = "/" then rootReal else rootReal ++ parentNorm) := by
    rcases h13 with hroot | ⟨hh, hl⟩
    · subst hroot
      simp [joinRoot]
    · have hne : parentNorm ≠ "/" := by
        intro hc
        rw [hc] at hl
        exact hl hslash
      rw [if_neg hne]
      exact joinRoot_eq hne hl
  simp only [resolveSafePath, h10]
  rw [if_neg hnt, hjoin]
  unfold realpathFS
  rw [if_neg (by rw [hex]; simp)]

theorem ensure_dirs_mem {fs : HostFS} {rootReal q : String} (h : q ∈ fs.dirs) :
    q ∈ (ensureTrashDirs fs rootReal).dirs := by
  unfold ensureTrashDirs
  simp only []
  by_cases c1 : fs.dirs.contains (rootReal ++ "/.trash") = true
  · rw [if_pos c1]
    by_cases c2 : fs.dirs.contains (rootReal ++ "/.trash" ++ "/.meta") = true
    · rw [if_pos c2]
      exact h
    · rw [if_neg c2]
      exact List.mem_append.mpr (Or.inl h)
  · rw [if_neg c1]
    by_cases c2 : (fs.dirs ++ [rootReal ++ "/.trash"]).contains
        (rootReal ++ "/.trash" ++ "/.meta") = true
    · rw [if_pos c2]
      exact List.mem_append.mpr (Or.inl h)
    · rw [if_neg c2]
      exact List.mem_append.mpr (Or.inl (List.mem_append.mpr (Or.inl h)))

theorem fexists_ensure {fs : HostFS} {rootReal q : String}
    (h : fexists fs q = true) :
    fexists (ensureTrashDirs fs rootReal) q = true := by
  unfold fexists at h ⊢
  rcases Bool.or_eq_true _ _ |>.mp h with hf | hd
  · apply Bool.or_eq_true _ _ |>.mpr
    left
    exact hf
  · apply Bool.or_eq_true _ _ |>.mpr
    right
    have hmem : q ∈ fs.dirs := by simpa using hd
    simpa using @ensure_dirs_mem fs rootReal q hmem


set_option maxHeartbeats 2000000 in
theorem restoreOp_ok {fs : HostFS} {meta : List (String × TrashRecord)}
    {rootReal id : String} {record : TrashRecord}
    {parentNorm parentFull dest : String}
    (hget : getMeta meta id = some record)
    (h1 : normalizeRequestPath (some record.originalPath) = record.originalPath)
    (hcond : ¬ (record.originalPath = "/"
      ∨ ("/.trash" : String).data.isPrefixOf record.originalPath.data = true))
    (h7 : posixDirname record.originalPath = parentNorm)
    (hres : resolveSafePath (realpathFS fs) (some parentNorm) rootReal
      = some (parentNorm, parentFull))
    (hdest : parentFull ++ "/" ++ posixBasename record.originalPath = dest)
    (hocc : fexists fs dest = false)
    (htr : fexists fs (rootReal ++ "/.trash" ++ "/" ++ record.trashName) = true) :
    restoreOp fs meta rootReal id
      = .ok (renameFS fs (rootReal ++ "/.trash" ++ "/" ++ record.trashName) dest,
          delMeta meta record.id) := by
  unfold restoreOp
  rw [hget]
  dsimp only []
  rw [h1, if_neg hcond, h7, hres]
  dsimp only []
  rw [hdest, hocc]
  rw [if_neg Bool.false_ne_true]
  rw [htr, if_pos rfl]

set_option maxHeartbeats 2000000 in
theorem restoreOp_conflict {fs : HostFS} {meta : List (String × TrashRecord)}
    {rootReal id : String} {record : TrashRecord}
    {parentNorm parentFull dest : String}
    (hget : getMeta meta id = some record)
    (h1 : normalizeRequestPath (some record.originalPath) = record.originalPath)
    (hcond : ¬ (record.originalPath = "/"
      ∨ ("/.trash" : String).data.isPrefixOf record.originalPath.data = true))
    (h7 : posixDirname record.originalPath = parentNorm)
    (hres : resolveSafePath (realpathFS fs) (some parentNorm) rootReal
      = some (parentNorm, parentFull))
    (hdest : parentFull ++ "/" ++ posixBasename record.originalPath = dest)
    (hocc : fexists fs dest = true) :
    restoreOp fs meta rootReal id = .error "Restore target already exists." := by
  unfold restoreOp
  rw [hget]
  dsimp only []
  rw [h1, if_neg hcond, h7, hres]
  dsimp only []
  rw [hdest, hocc, if_pos rfl]

set_option maxHeartbeats 2000000 in
theorem restoreOp_missing {fs : HostFS} {meta : List (String × TrashRecord)}
    {rootReal id : String} {record : TrashRecord} {parentNorm : String}
    (hget : getMeta meta id = some record)
    (h1 : normalizeRequestPath (some record.originalPath) = record.originalPath)
    (hcond : ¬ (record.originalPath = "/"
      ∨ ("/.trash" : String).data.isPrefixOf record.originalPath.data = true))
    (h7 : posixDirname record.originalPath = parentNorm)
    (hres : resolveSafePath (realpathFS fs) (some parentNorm) rootReal = none) :
    restoreOp fs meta rootReal id
      = .error "Restore location no longer exists." := by
  unfold restoreOp
  rw [hget]
  dsimp only []
  rw [h1, if_neg hcond, h7, hres]

/-- C5: trash/restore round trip on the local adapter. For any entry at a
normalized virtual path `p` (not the root, not under `/.trash`) whose parent
directory exists, with a fresh sidecar id and a non-colliding trash name:
`trashOp` succeeds and returns a record with `name = leaf`,
`originalPath = p`; the entry is gone from its original host location; the
sidecar is readable by id; `restoreOp` on the returned id succeeds and
restores exactly the original files (and the original directories plus the
now-created `.trash` and `.trash/.meta`), so the entry is back at `p` with
its original content; the sidecar is unlinked (the final metadata store is
the original one, in which the id misses); the trash directory is left with
no item; and in any intermediate state, restore fails with
"Restore target already exists." when something occupies the destination
leaf, and with "Restore location no longer exists." when the recorded
parent no longer resolves. -/
theorem trash_restore_round_trip
    (fs : HostFS) (meta : List (String × TrashRecord))
    (rootReal p parentNorm leaf : String) (now : Nat) (id : String)
    (h1 : normalizeRequestPath (some p) = p)
    (h2 : p ≠ "/")
    (h3 : ("/.trash" : String).data.isPrefixOf p.data = false)
    (h4 : p.data.head? = some '/')
    (h5 : ¬ p.data.getLast? = some '/')
    (h6 : ¬ rootReal.data.getLast? = some '/')
    (h7 : posixDirname p = parentNorm)
    (h8 : posixBasename p = leaf)
    (h9 : (if parentNorm = "/" then rootReal else rootReal ++ parentNorm)
        ++ "/" ++ leaf = rootReal ++ p)
    (h10 : normalizeRequestPath (some parentNorm) = parentNorm)
    (h11 : parentNorm ≠ "/.trash")
    (h12 : ("/.trash/" : String).data.isPrefixOf parentNorm.data = false)
    (h13 : parentNorm = "/" ∨
      (parentNorm.data.head? = some '/' ∧ ¬ parentNorm.data.getLast? = some '/'))
    (h14 : fexists fs (rootReal ++ p) = true)
    (h15 : fexists fs
      (if parentNorm = "/" then rootReal else rootReal ++ parentNorm) = true)
    (h16 : ∀ k ∈ fs.files.map Prod.fst ++ fs.dirs,
      (rootReal ++ "/.trash" : String).data.isPrefixOf k.data = false)
    (h17 : ∀ m ∈ meta, m.1 ≠ id)
    (h18 : sanitizeName leaf = some leaf)
    (h19 : basenameStr (rootReal ++ p) = leaf)
    (h20 : rootReal ++ "/.trash" ++ "/.meta"
        ≠ rootReal ++ "/.trash" ++ "/" ++ (Nat.repr now ++ "-" ++ leaf ++ "-" ++ id))
    (h21 : (rootReal ++ "/.trash" ++ "/" ++ (Nat.repr now ++ "-" ++ leaf ++ "-" ++ id)
        ++ "/" : String).data.isPrefixOf
        (rootReal ++ "/.trash" ++ "/.meta").data = false)
    (h22 : (if parentNorm = "/" then rootReal else rootReal ++ parentNorm)
        ≠ rootReal ++ p)
    (h23 : (rootReal ++ p ++ "/" : String).data.isPrefixOf
        (if parentNorm = "/" then rootReal else rootReal ++ parentNorm).data
        = false) :
    ∃ fs2 meta1 record,
      trashOp fs meta rootReal p now id = .ok (fs2, meta1, record)
      ∧ record.name = leaf ∧ record.originalPath = p ∧ record.id = id
      ∧ fexists fs2 (rootReal ++ p) = false
      ∧ getMeta meta1 id = some record
      ∧ restoreOp fs2 meta1 rootReal id = .ok
          (⟨fs.files, fs.dirs ++ [rootReal ++ "/.trash"]
            ++ [rootReal ++ "/.trash" ++ "/.meta"]⟩, meta)
      ∧ fexists ⟨fs.files, fs.dirs ++ [rootReal ++ "/.trash"]
            ++ [rootReal ++ "/.trash" ++ "/.meta"]⟩ (rootReal ++ p) = true
      ∧ fileContent ⟨fs.files, fs.dirs ++ [rootReal ++ "/.trash"]
            ++ [rootReal ++ "/.trash" ++ "/.meta"]⟩ (rootReal ++ p)
          = fileContent fs (rootReal ++ p)
      ∧ getMeta meta id = none
      ∧ trashItems ⟨fs.files, fs.dirs ++ [rootReal ++ "/.trash"]
            ++ [rootReal ++ "/.trash" ++ "/.meta"]⟩ rootReal = []
      ∧ (∀ fsY : HostFS,
          resolveSafePath (realpathFS fsY) (some parentNorm) rootReal =
            some (parentNorm,
              if parentNorm = "/" then rootReal else rootReal ++ parentNorm) →
          fexists fsY (rootReal ++ p) = true →
          restoreOp fsY meta1 rootReal id
            = .error "Restore target already exists.")
      ∧ (∀ fsZ : HostFS,
          fexists fsZ
            (if parentNorm = "/" then rootReal else rootReal ++ parentNorm)
            = false →
          restoreOp fsZ meta1 rootReal id
            = .error "Restore location no longer exists.") := by
  have hres : resolveSafePath (realpathFS fs) (some p) rootReal =
      some (p, rootReal ++ p) :=
    resolveSafePath_concrete h1 h3 h2 h4 h5 h6 h14
  have hcond : ¬ (p = "/" ∨ ("/.trash" : String).data.isPrefixOf p.data = true) := by
    rintro (hc | hc)
    · exact h2 hc
    · rw [h3] at hc
      exact Bool.noConfusion hc
  have l1 : ("/" : String).data.length = 1 := by decide
  have hTPd : (rootReal ++ "/.trash").data.isPrefixOf
      (rootReal ++ "/.trash" ++ "/"
        ++ (Nat.repr now ++ "-" ++ leaf ++ "-" ++ id)).data = true := by
    apply isP_iff.mpr
    simp only [String.data_append]
    exact (List.prefix_append _ _).trans (List.prefix_append _ _)
  have hTPslash : (rootReal ++ "/.trash").data.isPrefixOf
      (rootReal ++ "/.trash" ++ "/" ++ (Nat.repr now ++ "-" ++ leaf ++ "-" ++ id)
        ++ "/").data = true := by
    apply isP_iff.mpr
    simp only [String.data_append]
    exact ((List.prefix_append _ _).trans (List.prefix_append _ _)).trans
      (List.prefix_append _ _)
  have hnTPs : (rootReal ++ "/.trash").data.isPrefixOf (rootReal ++ p).data
      = false := h16 _ (mem_keys_of_fexists h14)
  have hgone : fexists (renameFS (ensureTrashDirs fs rootReal) (rootReal ++ p)
      (rootReal ++ "/.trash" ++ "/" ++ (Nat.repr now ++ "-" ++ leaf ++ "-" ++ id)))
      (rootReal ++ p) = false := fexists_renamed_src_false hTPd hnTPs
  have hall : ∀ k ∈ fs.files.map Prod.fst ++ (fs.dirs ++ [rootReal ++ "/.trash"]
      ++ [rootReal ++ "/.trash" ++ "/.meta"]),
      k ≠ rootReal ++ "/.trash" ++ "/" ++ (Nat.repr now ++ "-" ++ leaf ++ "-" ++ id)
      ∧ (rootReal ++ "/.trash" ++ "/" ++ (Nat.repr now ++ "-" ++ leaf ++ "-" ++ id)
        ++ "/" : String).data.isPrefixOf k.data = false := by
    intro k hk
    rcases List.mem_append.mp hk with hkf | hkd
    · have h := h16 k (List.mem_append.mpr (Or.inl hkf))
      constructor
      · intro hc
        rw [hc, hTPd] at h
        exact Bool.noConfusion h
      · rw [Bool.eq_false_iff]
        intro hc
        have h2' := isP_trans hTPslash hc
        rw [h2'] at h
        exact Bool.noConfusion h
    · rcases List.mem_append.mp hkd with hkd2 | hkm
      · rcases List.mem_append.mp hkd2 with hko | hkt
        · have h := h16 k (List.mem_append.mpr (Or.inr hko))
          constructor
          · intro hc
            rw [hc, hTPd] at h
            exact Bool.noConfusion h
          · rw [Bool.eq_false_iff]
            intro hc
            have h2' := isP_trans hTPslash hc
            rw [h2'] at h
            exact Bool.noConfusion h
        · have hkt' : k = rootReal ++ "/.trash" := by simpa using hkt
          subst hkt'
          constructor
          · intro hc
            have hlen := congrArg (fun s => s.data.length) hc
            simp only [data_length_append, l1] at hlen
            omega
          · apply isP_false_of_longer
            simp only [data_length_append, l1]
            omega
      · have hkm' : k = rootReal ++ "/.trash" ++ "/.meta" := by simpa using hkm
        subst hkm'
        exact ⟨h20, h21⟩
  refine ⟨_, _, ⟨id, leaf, p, now,
      if isDirFS fs (rootReal ++ p) then "dir" else "file",
      if isDirFS fs (rootReal ++ p) then 0
        else ((fileContent fs (rootReal ++ p)).getD "").data.length,
      Nat.repr now ++ "-" ++ leaf ++ "-" ++ id⟩,
    trashOp_eval hres h2 h18 h19, rfl, rfl, rfl, hgone,
    getMeta_setMeta meta id _, ?_, ?_, rfl, ?_, trashItems_clean h16, ?_, ?_⟩
  · have hexP : fexists (renameFS (ensureTrashDirs fs rootReal) (rootReal ++ p)
        (rootReal ++ "/.trash" ++ "/" ++ (Nat.repr now ++ "-" ++ leaf ++ "-" ++ id)))
        (if parentNorm = "/" then rootReal else rootReal ++ parentNorm) = true :=
      fexists_renamed_other h22 h23 (fexists_ensure h15)
    have hresP := resolveSafePath_parent h10 h11 h12 h13 h6 hexP
    have htrashEx : fexists (renameFS (ensureTrashDirs fs rootReal) (rootReal ++ p)
        (rootReal ++ "/.trash" ++ "/" ++ (Nat.repr now ++ "-" ++ leaf ++ "-" ++ id)))
        (rootReal ++ "/.trash" ++ "/" ++ (Nat.repr now ++ "-" ++ leaf ++ "-" ++ id))
        = true := fexists_renamed_dst (fexists_ensure h14)
    have hdest : (if parentNorm = "/" then rootReal else rootReal ++ parentNorm)
        ++ "/" ++ posixBasename p = rootReal ++ p := by
      rw [h8]
      exact h9
    have hmain := restoreOp_ok (getMeta_setMeta meta id (⟨id, leaf, p, now,
        if isDirFS fs (rootReal ++ p) then "dir" else "file",
        if isDirFS fs (rootReal ++ p) then 0
          else ((fileContent fs (rootReal ++ p)).getD "").data.length,
        Nat.repr now ++ "-" ++ leaf ++ "-" ++ id⟩ : TrashRecord))
      h1 hcond h7 hresP hdest hgone htrashEx
    rw [hmain]
    have hrt : renameFS (renameFS (ensureTrashDirs fs rootReal) (rootReal ++ p)
        (rootReal ++ "/.trash" ++ "/" ++ (Nat.repr now ++ "-" ++ leaf ++ "-" ++ id)))
        (rootReal ++ "/.trash" ++ "/" ++ (Nat.repr now ++ "-" ++ leaf ++ "-" ++ id))
        (rootReal ++ p) = ensureTrashDirs fs rootReal := by
      rw [ensureTrashDirs_eq h16]
      exact renameFS_roundtrip hall
    rw [hrt, ensureTrashDirs_eq h16]
    have hdel : delMeta (setMeta meta id (⟨id, leaf, p, now,
        if isDirFS fs (rootReal ++ p) then "dir" else "file",
        if isDirFS fs (rootReal ++ p) then 0
          else ((fileContent fs (rootReal ++ p)).getD "").data.length,
        Nat.repr now ++ "-" ++ leaf ++ "-" ++ id⟩ : TrashRecord)) id = meta :=
      delMeta_setMeta _ h17
    rw [hdel]
  · rw [← ensureTrashDirs_eq h16]
    exact fexists_ensure h14
  · unfold getMeta
    have hfind : meta.find? (fun m => m.1 = id) = none := by
      rw [List.find?_eq_none]
      intro m hm
      simp [h17 m hm]
    rw [hfind]
    rfl
  · intro fsY hresY hoccY
    have hdest : (if parentNorm = "/" then rootReal else rootReal ++ parentNorm)
        ++ "/" ++ posixBasename p = rootReal ++ p := by
      rw [h8]
      exact h9
    exact restoreOp_conflict (getMeta_setMeta meta id (⟨id, leaf, p, now,
        if isDirFS fs (rootReal ++ p) then "dir" else "file",
        if isDirFS fs (rootReal ++ p) then 0
          else ((fileContent fs (rootReal ++ p)).getD "").data.length,
        Nat.repr now ++ "-" ++ leaf ++ "-" ++ id⟩ : TrashRecord))
      h1 hcond h7 hresY hdest hoccY
  · intro fsZ hmiss
    exact restoreOp_missing (getMeta_setMeta meta id (⟨id, leaf, p, now,
        if isDirFS fs (rootReal ++ p) then "dir" else "file",
        if isDirFS fs (rootReal ++ p) then 0
          else ((fileContent fs (rootReal ++ p)).getD "").data.length,
        Nat.repr now ++ "-" ++ leaf ++ "-" ++ id⟩ : TrashRecord))
      h1 hcond h7 (resolveSafePath_parent_missing h10 h11 h12 h13 hmiss)

/-- Witness for C5: the spec scenario. Root `/data/u` holds `notes.txt`
containing `hello`; trashing `/notes.txt` at time 111 with sidecar id `id1`
and restoring `id1` puts the file back with its content, removes the
sidecar and leaves the trash empty. -/
theorem trash_restore_round_trip_witness :
    ∃ fs2 meta1 record,
      trashOp ⟨[("/data/u/notes.txt", "hello")], ["/data/u"]⟩ [] "/data/u"
          "/notes.txt" 111 "id1" = .ok (fs2, meta1, record)
      ∧ record.name = "notes.txt" ∧ record.originalPath = "/notes.txt"
      ∧ record.id = "id1"
      ∧ fexists fs2 ("/data/u" ++ "/notes.txt") = false
      ∧ getMeta meta1 "id1" = some record
      ∧ restoreOp fs2 meta1 "/data/u" "id1" = .ok
          (⟨[("/data/u/notes.txt", "hello")],
            ["/data/u"] ++ ["/data/u" ++ "/.trash"]
            ++ ["/data/u" ++ "/.trash" ++ "/.meta"]⟩, [])
      ∧ fexists ⟨[("/data/u/notes.txt", "hello")],
            ["/data/u"] ++ ["/data/u" ++ "/.trash"]
            ++ ["/data/u" ++ "/.trash" ++ "/.meta"]⟩
          ("/data/u" ++ "/notes.txt") = true
      ∧ fileContent ⟨[("/data/u/notes.txt", "hello")],
            ["/data/u"] ++ ["/data/u" ++ "/.trash"]
            ++ ["/data/u" ++ "/.trash" ++ "/.meta"]⟩ ("/data/u" ++ "/notes.txt")
          = fileContent ⟨[("/data/u/notes.txt", "hello")], ["/data/u"]⟩
              ("/data/u" ++ "/notes.txt")
      ∧ getMeta ([] : List (String × TrashRecord)) "id1" = none
      ∧ trashItems ⟨[("/data/u/notes.txt", "hello")],
            ["/data/u"] ++ ["/data/u" ++ "/.trash"]
            ++ ["/data/u" ++ "/.trash" ++ "/.meta"]⟩ "/data/u" = []
      ∧ (∀ fsY : HostFS,
          resolveSafePath (realpathFS fsY) (some "/") "/data/u" =
            some ("/",
              if ("/" : String) = "/" then "/data/u" else "/data/u" ++ "/") →
          fexists fsY ("/data/u" ++ "/notes.txt") = true →
          restoreOp fsY meta1 "/data/u" "id1"
            = .error "Restore target already exists.")
      ∧ (∀ fsZ : HostFS,
          fexists fsZ
            (if ("/" : String) = "/" then "/data/u" else "/data/u" ++ "/")
            = false →
          restoreOp fsZ meta1 "/data/u" "id1"
            = .error "Restore location no longer exists.") :=
  trash_restore_round_trip ⟨[("/data/u/notes.txt", "hello")], ["/data/u"]⟩ []
    "/data/u" "/notes.txt" "/" "notes.txt" 111 "id1"
    (by decide) (by decide) (by decide) (by decide) (by decide) (by decide)
    (by decide) (by decide) (by decide) (by decide) (by decide) (by decide)
    (by decide) (by decide) (by decide) (by decide) (by decide) (by decide)
    (by decide) (by decide) (by decide) (by decide) (by decide)

end BroFM
